import Mathlib

/-!
# FAME: banded Levenshtein dynamic programming (`LevenshtDP.h`)

A shallow embedding of the class template `LevenshtDP<T, band>`:
`runDPFill`, `LevRec`, `getEditDist` and `backtrackDP`, together with the
banded storage they use and the reset state and masks of the bit-parallel
automaton (`ShiftAnd`).

Conventions of the embedding.

* The distance type `T` is an unsigned integral type of `w` bits.  A value of
  type `T` is a natural number below `2 ^ w`.  C++ evaluates `a + b` on
  operands narrower than `int` in `int` (no wrap-around before the result is
  stored), and in the operand type otherwise; `addT` follows that rule and
  `castT` is the conversion to `T` performed by a store.
* `long` row and column indices are integers.
* `rowPat` and `colPat` are lists of characters.
-/

namespace FAME

/-! ## The distance type -/

/-- Largest value of the `w`-bit unsigned distance type,
`std::numeric_limits<T>::max()`. -/
def maxT (w : Nat) : Nat := 2 ^ w - 1

/-- Conversion of an integer to the `w`-bit unsigned type `T`. -/
def castT (w : Nat) (v : Int) : Nat := (v % (2 ^ w : Int)).toNat

/-- The sum `a + b` of two values of type `T` as C++ computes it: operands
narrower than `int` (32 bits) are promoted to `int` and the sum is exact,
wider unsigned operands wrap modulo `2 ^ w`. -/
def addT (w : Nat) (a b : Nat) : Nat :=
  if w < 32 then a + b else (a + b) % 2 ^ w

/-! ## Banded storage -/

/-- Modelled from the spec: `BandedMatrix<T, bw>` (`BandedMatrix.h` is not
part of the sources).  A store addressed by logical `(row, col)` that keeps
the cells of the corridor `|col - row| ≤ bw`; a cell outside the corridor is
not stored and reads as the value `outside`. -/
structure BandedMatrix where
  /-- Corridor half-width (the template parameter of the store). -/
  bw : Nat
  /-- Value read for a cell outside the corridor. -/
  outside : Nat
  /-- Contents of the corridor cells. -/
  cells : Int → Int → Nat

namespace BandedMatrix

/-- Modelled from the spec: construction with a fill value; every corridor
cell holds `fillValue`. -/
def create (bw outside fillValue : Nat) : BandedMatrix :=
  { bw := bw, outside := outside, cells := fun _ _ => fillValue }

/-- Modelled from the spec: whether `(row, col)` lies in the corridor. -/
def inCorridor (M : BandedMatrix) (row col : Int) : Bool :=
  decide ((col - row).natAbs ≤ M.bw)

/-- Modelled from the spec: `dpMatrix(row, col)` as a read. -/
def get (M : BandedMatrix) (row col : Int) : Nat :=
  if M.inCorridor row col then M.cells row col else M.outside

/-- Modelled from the spec: `dpMatrix(row, col) = v`; only corridor cells
are stored. -/
def set (M : BandedMatrix) (row col : Int) (v : Nat) : BandedMatrix :=
  if M.inCorridor row col then
    { M with cells := fun i j => if i = row ∧ j = col then v else M.cells i j }
  else M

end BandedMatrix

/-! ## `LevenshtDP` -/

/-- Character `s[i]` of a string, with the terminating NUL past the end. -/
def charAt (s : List Char) (i : Int) : Char :=
  if i < 0 then Char.ofNat 0 else s.getD i.toNat (Char.ofNat 0)

/-- The `mismatchFlag` of `LevRec` and `backtrackDP`:
`rowPat[i-1] == colPat[j-1] ? 0 : 1`. -/
def mismatchFlag (rowPat colPat : List Char) (i j : Int) : Nat :=
  if charAt rowPat (i - 1) = charAt colPat (j - 1) then 0 else 1

/-- The recurrence `LevRec(i, j)`:
`min {dpMatrix(i-1,j) + 1, dpMatrix(i,j-1) + 1, dpMatrix(i-1,j-1) + mismatchFlag}`. -/
def LevRec (w : Nat) (rowPat colPat : List Char) (M : BandedMatrix) (i j : Int) : Nat :=
  min (min (addT w (M.get (i - 1) j) 1) (addT w (M.get i (j - 1)) 1))
    (addT w (M.get (i - 1) (j - 1)) (mismatchFlag rowPat colPat i j))

/-- The matrix built by the constructor: dimensions `(m+1) × (m+1+band)`,
corridor half-width `band + 1`, every cell `0`. -/
def initMatrix (band outside : Nat) : BandedMatrix :=
  BandedMatrix.create (band + 1) outside 0

/-- First loop of `runDPFill`: `dpMatrix(0, col) = col` for `1 ≤ col ≤ band`. -/
def initFirstRow (w band : Nat) (M : BandedMatrix) : BandedMatrix :=
  (List.range band).foldl
    (fun M (c : Nat) => M.set 0 ((c : Int) + 1) (castT w ((c : Int) + 1))) M

/-- Second loop of `runDPFill`: `dpMatrix(row, 0) = row` for `1 ≤ row ≤ band`. -/
def initFirstCol (w band : Nat) (M : BandedMatrix) : BandedMatrix :=
  (List.range band).foldl
    (fun M (r : Nat) => M.set ((r : Int) + 1) 0 (castT w ((r : Int) + 1))) M

/-- The sentinel `std::numeric_limits<T>::max() - index - band - 1`. -/
def sentinel (w band : Nat) (index : Int) : Nat :=
  castT w ((maxT w : Int) - index - band - 1)

/-- Third loop of `runDPFill`: the outermost left-hand band,
`dpMatrix(col + (band+1), col)` for `0 ≤ col < m - band`. -/
def initLeftBand (w band m : Nat) (M : BandedMatrix) : BandedMatrix :=
  (List.range (m - band)).foldl
    (fun M (c : Nat) => M.set ((c : Int) + (band + 1)) c (sentinel w band c)) M

/-- Fourth loop of `runDPFill`: the outermost right-hand band,
`dpMatrix(row, row + (band+1))` for `0 ≤ row < m`. -/
def initRightBand (w band m : Nat) (M : BandedMatrix) : BandedMatrix :=
  (List.range m).foldl
    (fun M (r : Nat) => M.set r ((r : Int) + (band + 1)) (sentinel w band r)) M

/-- Body of the inner loop of `runDPFill` at `row` and `offset = k - band`. -/
def fillCell (w band : Nat) (rowPat colPat : List Char) (row : Int)
    (M : BandedMatrix) (k : Nat) : BandedMatrix :=
  let offset : Int := (k : Int) - band
  if row + offset ≤ 0 then M
  else M.set row (row + offset) (castT w (LevRec w rowPat colPat M row (row + offset)))

/-- Inner loop of `runDPFill`: `offset` from `-band` to `band`. -/
def fillRow (w band : Nat) (rowPat colPat : List Char)
    (M : BandedMatrix) (r : Nat) : BandedMatrix :=
  (List.range (2 * band + 1)).foldl (fillCell w band rowPat colPat ((r : Int) + 1)) M

/-- Outer loop of `runDPFill`: `row` from `1` to `m`. -/
def fillMatrix (w band : Nat) (rowPat colPat : List Char)
    (M : BandedMatrix) : BandedMatrix :=
  (List.range rowPat.length).foldl (fillRow w band rowPat colPat) M

/-- The border initialisation of `runDPFill`. -/
def initBorders (w band m : Nat) (M : BandedMatrix) : BandedMatrix :=
  initRightBand w band m
    (initLeftBand w band m
      (initFirstCol w band
        (initFirstRow w band (M.set 0 0 0))))

/-- The member function `runDPFill`, as a function of the matrix. -/
def runDPFill (w band : Nat) (rowPat colPat : List Char)
    (M : BandedMatrix) : BandedMatrix :=
  fillMatrix w band rowPat colPat (initBorders w band rowPat.length M)

/-- The member function `getEditDist`: minimum of the final row over the
offsets `-band .. band`, starting from `max()`. -/
def getEditDist (w band m : Nat) (M : BandedMatrix) : Nat :=
  (List.range (2 * band + 1)).foldl
    (fun minimum (k : Nat) => min minimum (M.get m ((m : Int) + ((k : Int) - band))))
    (maxT w)

/-! ## `backtrackDP` -/

/-- The enumeration `ERROR_T`. -/
inductive ERROR_T where
  | MATCH
  | MISMATCH
  | INSERTION
  | DELETION
  deriving DecidableEq, Repr

/-- The variables of the backtracking loop: `row`, `col` and `errorTrace`. -/
structure BtState where
  /-- The loop variable `row`. -/
  row : Int
  /-- The column `col` of the current cell. -/
  col : Int
  /-- The vector `errorTrace`. -/
  errorTrace : List ERROR_T
  deriving DecidableEq, Repr

/-- Ways in which the embedding of `backtrackDP` can stop without a trace. -/
inductive BtError where
  /-- The read `colPat[col - 1]` with `col = 0`: an index before the text. -/
  | textIndexBeforeStart
  /-- The iteration budget of the embedding is used up. -/
  | outOfFuel
  deriving DecidableEq, Repr

/-- The search for the start column in `backtrackDP`: the pair
`(minimum, col)` after scanning the offsets `-band .. band`; a cell replaces
the current minimum only when strictly smaller. -/
def startColumn (w band m : Nat) (M : BandedMatrix) : Nat × Int :=
  (List.range (2 * band + 1)).foldl
    (fun (acc : Nat × Int) (k : Nat) =>
      if M.get m ((m : Int) + ((k : Int) - band)) < acc.1 then
        (M.get m ((m : Int) + ((k : Int) - band)), (m : Int) + ((k : Int) - band))
      else acc)
    (maxT w, 0)

/-- The entry written for a diagonal step: `MISMATCH` if `mismatchFlag` is
set, `MATCH` otherwise. -/
def diagEntry (flag : Nat) : ERROR_T :=
  if flag ≠ 0 then ERROR_T.MISMATCH else ERROR_T.MATCH

/-- The sum `dpMatrix(row-1,col) + 1` compared by a backtracking step. -/
def upCost (w : Nat) (M : BandedMatrix) (s : BtState) : Nat :=
  addT w (M.get (s.row - 1) s.col) 1

/-- The sum `dpMatrix(row,col-1) + 1` compared by a backtracking step. -/
def leftCost (w : Nat) (M : BandedMatrix) (s : BtState) : Nat :=
  addT w (M.get s.row (s.col - 1)) 1

/-- The sum `dpMatrix(row-1,col-1) + mismatchFlag` compared by a
backtracking step. -/
def diagCost (w : Nat) (rowPat colPat : List Char) (M : BandedMatrix) (s : BtState) : Nat :=
  addT w (M.get (s.row - 1) (s.col - 1)) (mismatchFlag rowPat colPat s.row s.col)

/-- One iteration of the backtracking loop at `(row, col)` with `row > 0`.
The read `colPat[col - 1]` fails for `col = 0`. -/
def backtrackStep (w : Nat) (rowPat colPat : List Char) (M : BandedMatrix)
    (s : BtState) : Except BtError BtState :=
  if s.col - 1 < 0 then Except.error BtError.textIndexBeforeStart
  else
    if upCost w M s < leftCost w M s then
      if upCost w M s < diagCost w rowPat colPat M s then
        Except.ok { row := s.row - 1, col := s.col,
                    errorTrace := s.errorTrace.set (s.row - 1).toNat ERROR_T.INSERTION }
      else
        Except.ok { row := s.row - 1, col := s.col - 1,
                    errorTrace := s.errorTrace.set (s.row - 1).toNat
                      (diagEntry (mismatchFlag rowPat colPat s.row s.col)) }
    else
      if leftCost w M s < diagCost w rowPat colPat M s then
        Except.ok { row := s.row, col := s.col - 1,
                    errorTrace := s.errorTrace.set (s.row - 1).toNat ERROR_T.DELETION }
      else
        Except.ok { row := s.row - 1, col := s.col - 1,
                    errorTrace := s.errorTrace.set (s.row - 1).toNat
                      (diagEntry (mismatchFlag rowPat colPat s.row s.col)) }

/-- The backtracking loop `for (long row = m; row > 0;)`, with an iteration
budget. -/
def backtrackLoop (w : Nat) (rowPat colPat : List Char) (M : BandedMatrix) :
    Nat → BtState → Except BtError (List ERROR_T)
  | 0, s => if s.row > 0 then Except.error BtError.outOfFuel else Except.ok s.errorTrace
  | fuel + 1, s =>
    if s.row > 0 then
      match backtrackStep w rowPat colPat M s with
      | Except.error e => Except.error e
      | Except.ok s2 => backtrackLoop w rowPat colPat M fuel s2
    else Except.ok s.errorTrace

/-- The state in which the backtracking loop starts. -/
def backtrackInit (w band : Nat) (rowPat : List Char) (M : BandedMatrix) : BtState :=
  { row := rowPat.length, col := (startColumn w band rowPat.length M).2,
    errorTrace := List.replicate rowPat.length ERROR_T.MATCH }

/-- The member function `backtrackDP`.  Every iteration lowers `row + col`,
so `row + col` iterations are enough from the start cell. -/
def backtrackDP (w band : Nat) (rowPat colPat : List Char) (M : BandedMatrix) :
    Except BtError (List ERROR_T) :=
  backtrackLoop w rowPat colPat M
    (rowPat.length + (startColumn w band rowPat.length M).2.toNat)
    (backtrackInit w band rowPat M)

/-- Number of entries of a trace that are not `MATCH`. -/
def nonMatchCount (tr : List ERROR_T) : Nat :=
  (tr.filter (fun e => decide (e ≠ ERROR_T.MATCH))).length

/-! ## `backtrackDP` with a record of the assigned trace entries -/

/-- The variables of the backtracking loop together with the indices of
`errorTrace` assigned so far, the earliest first. -/
structure BtTraced where
  /-- The variables `row`, `col` and `errorTrace`. -/
  state : BtState
  /-- The indices of `errorTrace` assigned so far, in program order. -/
  assigned : List Nat

/-- The assignment `errorTrace[row - 1] = e`, recorded. -/
def BtTraced.assign (S : BtTraced) (e : ERROR_T) : BtTraced :=
  { state := { S.state with errorTrace := S.state.errorTrace.set (S.state.row - 1).toNat e },
    assigned := S.assigned ++ [(S.state.row - 1).toNat] }

/-- The statement `--row`. -/
def BtTraced.decRow (S : BtTraced) : BtTraced :=
  { S with state := { S.state with row := S.state.row - 1 } }

/-- The statement `--col`. -/
def BtTraced.decCol (S : BtTraced) : BtTraced :=
  { S with state := { S.state with col := S.state.col - 1 } }

/-- The nested comparisons of one iteration of the backtracking loop, on the
values it has read: `flag` is `mismatchFlag`, `up` is `dpMatrix(row-1,col)`,
`left` is `dpMatrix(row,col-1)` and `diag` is `dpMatrix(row-1,col-1)`. -/
def backtrackBranch (w : Nat) (flag up left diag : Nat) (S : BtTraced) : BtTraced :=
  if addT w up 1 < addT w left 1 then
    if addT w up 1 < addT w diag flag then
      (S.assign ERROR_T.INSERTION).decRow
    else
      ((S.assign (diagEntry flag)).decRow).decCol
  else
    if addT w left 1 < addT w diag flag then
      (S.assign ERROR_T.DELETION).decCol
    else
      ((S.assign (diagEntry flag)).decRow).decCol

/-- One iteration of the backtracking loop, recorded.  The read
`colPat[col - 1]` fails for `col = 0`. -/
def backtrackStepLog (w : Nat) (rowPat colPat : List Char) (M : BandedMatrix)
    (S : BtTraced) : Except BtError BtTraced :=
  if S.state.col - 1 < 0 then Except.error BtError.textIndexBeforeStart
  else Except.ok (backtrackBranch w (mismatchFlag rowPat colPat S.state.row S.state.col)
    (M.get (S.state.row - 1) S.state.col) (M.get S.state.row (S.state.col - 1))
    (M.get (S.state.row - 1) (S.state.col - 1)) S)

/-- The backtracking loop `for (long row = m; row > 0;)`, recorded, with an
iteration budget. -/
def backtrackLoopLog (w : Nat) (rowPat colPat : List Char) (M : BandedMatrix) :
    Nat → BtTraced → Except BtError BtTraced
  | 0, S => if S.state.row > 0 then Except.error BtError.outOfFuel else Except.ok S
  | fuel + 1, S =>
    if S.state.row > 0 then
      match backtrackStepLog w rowPat colPat M S with
      | Except.error e => Except.error e
      | Except.ok S2 => backtrackLoopLog w rowPat colPat M fuel S2
    else Except.ok S

/-- The member function `backtrackDP`, recorded, started with an empty
record. -/
def backtrackDPLog (w band : Nat) (rowPat colPat : List Char) (M : BandedMatrix) :
    Except BtError BtTraced :=
  backtrackLoopLog w rowPat colPat M
    (rowPat.length + (startColumn w band rowPat.length M).2.toNat)
    { state := backtrackInit w band rowPat M, assigned := [] }

/-- The backtracking loop on a given sequence of read values
`(flag, up, left, diag)`, one per iteration: the loop runs while `row > 0`
and values are left.  Every run of the loop, whatever its reads return, is
of this form. -/
def backtrackRun (w : Nat) : List (Nat × Nat × Nat × Nat) → BtTraced → BtTraced
  | [], S => S
  | v :: vs, S =>
    if S.state.row > 0 then
      backtrackRun w vs (backtrackBranch w v.1 v.2.1 v.2.2.1 v.2.2.2 S)
    else S

/-! ## `runDPFill` with a record of its matrix accesses -/

/-- An access of `runDPFill` to the matrix: an assignment to
`dpMatrix(row, col)`, or a read of `dpMatrix(row, col)` by `LevRec`. -/
inductive Access where
  /-- The assignment `dpMatrix(row, col) = ...`. -/
  | write (row col : Int)
  /-- A read of `dpMatrix(row, col)` in `LevRec`. -/
  | read (row col : Int)
  deriving DecidableEq, Repr

/-- The matrix together with the accesses made so far, the earliest first. -/
structure Traced where
  /-- The matrix `dpMatrix`. -/
  matrix : BandedMatrix
  /-- The accesses made so far, in program order. -/
  log : List Access

/-- The assignment `dpMatrix(row, col) = v`, recorded. -/
def Traced.set (S : Traced) (row col : Int) (v : Nat) : Traced :=
  { matrix := S.matrix.set row col v, log := S.log ++ [Access.write row col] }

/-- The three reads of `LevRec(i, j)`: `dpMatrix(i-1,j)`, `dpMatrix(i,j-1)`
and `dpMatrix(i-1,j-1)`, recorded. -/
def Traced.readLevRec (S : Traced) (i j : Int) : Traced :=
  { S with log := S.log ++
      [Access.read (i - 1) j, Access.read i (j - 1), Access.read (i - 1) (j - 1)] }

/-- First loop of `runDPFill`, recorded. -/
def initFirstRowLog (w band : Nat) (S : Traced) : Traced :=
  (List.range band).foldl
    (fun S (c : Nat) => S.set 0 ((c : Int) + 1) (castT w ((c : Int) + 1))) S

/-- Second loop of `runDPFill`, recorded. -/
def initFirstColLog (w band : Nat) (S : Traced) : Traced :=
  (List.range band).foldl
    (fun S (r : Nat) => S.set ((r : Int) + 1) 0 (castT w ((r : Int) + 1))) S

/-- Third loop of `runDPFill` (outermost left-hand band), recorded. -/
def initLeftBandLog (w band m : Nat) (S : Traced) : Traced :=
  (List.range (m - band)).foldl
    (fun S (c : Nat) => S.set ((c : Int) + (band + 1)) c (sentinel w band c)) S

/-- Fourth loop of `runDPFill` (outermost right-hand band), recorded. -/
def initRightBandLog (w band m : Nat) (S : Traced) : Traced :=
  (List.range m).foldl
    (fun S (r : Nat) => S.set r ((r : Int) + (band + 1)) (sentinel w band r)) S

/-- Body of the inner loop of `runDPFill` at `row` and `offset = k - band`,
recorded: the reads of `LevRec(row, row + offset)`, then the assignment. -/
def fillCellLog (w band : Nat) (rowPat colPat : List Char) (row : Int)
    (S : Traced) (k : Nat) : Traced :=
  let offset : Int := (k : Int) - band
  if row + offset ≤ 0 then S
  else (S.readLevRec row (row + offset)).set row (row + offset)
    (castT w (LevRec w rowPat colPat S.matrix row (row + offset)))

/-- Inner loop of `runDPFill`, recorded. -/
def fillRowLog (w band : Nat) (rowPat colPat : List Char)
    (S : Traced) (r : Nat) : Traced :=
  (List.range (2 * band + 1)).foldl (fillCellLog w band rowPat colPat ((r : Int) + 1)) S

/-- Outer loop of `runDPFill`, recorded. -/
def fillMatrixLog (w band : Nat) (rowPat colPat : List Char) (S : Traced) : Traced :=
  (List.range rowPat.length).foldl (fillRowLog w band rowPat colPat) S

/-- The border initialisation of `runDPFill`, recorded. -/
def initBordersLog (w band m : Nat) (S : Traced) : Traced :=
  initRightBandLog w band m
    (initLeftBandLog w band m
      (initFirstColLog w band
        (initFirstRowLog w band (S.set 0 0 0))))

/-- The member function `runDPFill` with the record of its accesses, started
with an empty record. -/
def runDPFillLog (w band : Nat) (rowPat colPat : List Char) (M : BandedMatrix) : Traced :=
  fillMatrixLog w band rowPat colPat
    (initBordersLog w band rowPat.length { matrix := M, log := [] })

/-- The accesses of the border initialisation of `runDPFill`, in program
order. -/
def borderAccesses (band m : Nat) : List Access :=
  [Access.write 0 0] ++
    (List.range band).flatMap (fun (c : Nat) => [Access.write 0 ((c : Int) + 1)]) ++
    (List.range band).flatMap (fun (r : Nat) => [Access.write ((r : Int) + 1) 0]) ++
    (List.range (m - band)).flatMap
      (fun (c : Nat) => [Access.write ((c : Int) + (band + 1)) c]) ++
    (List.range m).flatMap (fun (r : Nat) => [Access.write r ((r : Int) + (band + 1))])

/-- The accesses of one iteration of the inner loop of `runDPFill`. -/
def cellAccesses (band : Nat) (row : Int) (k : Nat) : List Access :=
  if row + ((k : Int) - band) ≤ 0 then []
  else [Access.read (row - 1) (row + ((k : Int) - band)),
        Access.read row (row + ((k : Int) - band) - 1),
        Access.read (row - 1) (row + ((k : Int) - band) - 1),
        Access.write row (row + ((k : Int) - band))]

/-- The accesses of the first `n` rows of the fill loop of `runDPFill`. -/
def fillAccesses (band n : Nat) : List Access :=
  (List.range n).flatMap (fun (r : Nat) =>
    (List.range (2 * band + 1)).flatMap (cellAccesses band ((r : Int) + 1)))

/-- Every read of the record is preceded by an assignment to the same
cell. -/
def ReadsAssigned (log : List Access) : Prop :=
  ∀ (pre post : List Access) (r c : Int),
    log = pre ++ Access.read r c :: post → Access.write r c ∈ pre

/-! ## `ShiftAnd`: the active-state vectors -/

/-- Modelled from the spec: a bit-vector of the automaton, the two 64-bit
machine words `B_0` (bits 0..63) and `B_1` (bits 64..127) read by the unit
tests (`ShiftAnd.h` is not part of the sources). -/
structure BitWords where
  /-- Low word: bits 0..63 of the vector. -/
  B_0 : Nat
  /-- High word: bits 64..127 of the vector. -/
  B_1 : Nat
  deriving DecidableEq, Repr

/-- Modelled from the spec: the vector whose low `n` bits are set and whose
higher bits are clear, as two 64-bit words. -/
def lowBits (n : Nat) : BitWords :=
  { B_0 := (2 ^ n - 1) % 2 ^ 64, B_1 := (2 ^ n - 1) / 2 ^ 64 % 2 ^ 64 }

/-- Modelled from the spec: `ShiftAnd<k>::reset()` (`ShiftAnd.h` is not part
of the sources): "sets active-state vector for level d to its low (d+1)
bits", for every level `d` in `0..k`, overwriting the previous content. -/
def reset (k : Nat) (active : List BitWords) : List BitWords :=
  (List.range (k + 1)).foldl (fun act (d : Nat) => act.set d (lowBits (d + 1))) active

/-! ## `ShiftAnd`: the match masks and the accepted mask -/

/-- Bit `j` of a two-word vector, `j < 128`. -/
def BitWords.bit (a : BitWords) (j : Nat) : Bool :=
  if j < 64 then a.B_0.testBit j else a.B_1.testBit (j - 64)

/-- The words of a vector are 64-bit values. -/
def BitWords.wf (a : BitWords) : Prop := a.B_0 < 2 ^ 64 ∧ a.B_1 < 2 ^ 64

/-- The number whose bits `0..n-1` are given by `f`. -/
def ofBits (f : Nat → Bool) : Nat → Nat
  | 0 => 0
  | n + 1 => ofBits f n + (if f n then 2 ^ n else 0)

/-- The two-word vector whose bit `j` is `f j`, `j < 128`. -/
def mkWords (f : Nat → Bool) : BitWords :=
  { B_0 := ofBits f 64, B_1 := ofBits (fun j => f (j + 64)) 64 }

/-- The alphabet map of the test fixture (`SetUp`): `A`, `C`, `G`, `T` have
the codes `0`, `1`, `2`, `3`.  The fixture leaves every other byte unset; such
bytes are given the code `0` here and are excluded by the statements. -/
def lmap (c : Char) : Nat :=
  if c = 'A' then 0 else if c = 'C' then 1 else if c = 'G' then 2 else if c = 'T' then 3 else 0

/-- The symbols of the alphabet of the tests. -/
def isACGT (c : Char) : Bool := c = 'A' || c = 'C' || c = 'G' || c = 'T'

/-- Modelled from the spec: whether the match mask of code `code` covers a
pattern position holding the symbol `q`: the symbol has that code, and, as the
test `bitmaskBisulfite` shows, the mask of `C` also covers a pattern `T`. -/
def covers (code : Nat) (q : Char) : Bool :=
  lmap q = code || (code = lmap 'C' && q = 'T')

/-- Number of pattern symbols represented in the 128-bit vectors: the tests
show the first 127 symbols of a longer pattern. -/
def usedLength (pattern : List Char) : Nat := min pattern.length 127

/-- Modelled from the spec: bit `j` of the match mask of a code, in the layout
of the unit tests: bit 0 (the start state) is set, bit `i + 1` is set iff the
mask covers pattern position `i`, every bit above the pattern is set. -/
def maskBit (pattern : List Char) (code : Nat) (j : Nat) : Bool :=
  j = 0 || usedLength pattern < j || covers code (charAt pattern ((j : Int) - 1))

/-- Modelled from the spec: the match mask `masks[code]`. -/
def masks (pattern : List Char) (code : Nat) : BitWords :=
  mkWords (maskBit pattern code)

/-- Modelled from the spec: the accepted mask, one bit at the state of the
last represented pattern symbol. -/
def accepted (pattern : List Char) : BitWords :=
  mkWords (fun j => j = usedLength pattern)

/-! ## Reference notions used by the statements -/

/-- The unbanded Levenshtein distance of two strings (unit costs for an
insertion, a deletion and a substitution). -/
def lev (xs ys : List Char) : Nat := levenshtein Levenshtein.defaultCost xs ys

/-- Cost of aligning two characters: `0` when equal, `1` otherwise. -/
def subst (a b : Char) : Nat := if a = b then 0 else 1

/-- Interior corridor cells of a pattern of length `m`: the cells computed
by the fill loop of `runDPFill`. -/
def interior (band m : Nat) (i j : Int) : Prop :=
  1 ≤ i ∧ i ≤ m ∧ 1 ≤ j ∧ j - i ≤ band ∧ i - j ≤ band

/-! ## Lemmas on the banded store -/

namespace BandedMatrix

@[simp] theorem set_bw (M : BandedMatrix) (r c : Int) (v : Nat) : (M.set r c v).bw = M.bw := by
  unfold set; split <;> rfl

@[simp] theorem set_outside (M : BandedMatrix) (r c : Int) (v : Nat) :
    (M.set r c v).outside = M.outside := by
  unfold set; split <;> rfl

@[simp] theorem set_inCorridor (M : BandedMatrix) (r c : Int) (v : Nat) (i j : Int) :
    (M.set r c v).inCorridor i j = M.inCorridor i j := by
  simp [inCorridor]

theorem get_set_self (M : BandedMatrix) (r c : Int) (v : Nat)
    (h : M.inCorridor r c = true) : (M.set r c v).get r c = v := by
  simp [get, h]
  simp [set, h]

theorem get_set_ne (M : BandedMatrix) (r c : Int) (v : Nat) (i j : Int)
    (h : i ≠ r ∨ j ≠ c) : (M.set r c v).get i j = M.get i j := by
  have hne : ¬ (i = r ∧ j = c) := by tauto
  unfold get
  rw [set_inCorridor, set_outside]
  by_cases hc : M.inCorridor r c = true
  · simp [set, hc, hne]
  · simp [set, hc]

theorem inCorridor_iff (M : BandedMatrix) (i j : Int) :
    M.inCorridor i j = true ↔ (j - i ≤ M.bw ∧ i - j ≤ M.bw) := by
  simp [inCorridor]; omega

/-- A loop of stores whose targets and values do not depend on the matrix. -/
theorem foldl_set_range (tr tc : Nat → Int) (val : Nat → Nat) (n : Nat) (M : BandedMatrix) :
    ((List.range n).foldl (fun M k => M.set (tr k) (tc k) (val k)) M).bw = M.bw ∧
    (∀ i j, (∀ k, k < n → i ≠ tr k ∨ j ≠ tc k) →
      ((List.range n).foldl (fun M k => M.set (tr k) (tc k) (val k)) M).get i j = M.get i j) ∧
    (∀ k, k < n → M.inCorridor (tr k) (tc k) = true →
      (∀ k2, k < k2 → k2 < n → tr k2 ≠ tr k ∨ tc k2 ≠ tc k) →
      ((List.range n).foldl (fun M k => M.set (tr k) (tc k) (val k)) M).get (tr k) (tc k) = val k) := by
  induction n with
  | zero => simp
  | succ n ih =>
    obtain ⟨ih1, ih2, ih3⟩ := ih
    rw [List.range_succ, List.foldl_append]
    simp only [List.foldl_cons, List.foldl_nil]
    refine ⟨by simp [ih1], ?_, ?_⟩
    · intro i j h
      rw [get_set_ne _ _ _ _ _ _ (h n (Nat.lt_succ_self n))]
      exact ih2 i j (fun k hk => h k (Nat.lt_succ_of_lt hk))
    · intro k hk hc hd
      rcases Nat.lt_succ_iff_lt_or_eq.mp hk with hlt | heq
      · rw [get_set_ne _ _ _ _ _ _ ?_]
        · exact ih3 k hlt hc (fun k2 h1 h2 => hd k2 h1 (Nat.lt_succ_of_lt h2))
        · have := hd n hlt (Nat.lt_succ_self n)
          tauto
      · subst heq
        apply get_set_self
        rw [inCorridor_iff, ih1, ← inCorridor_iff]; exact hc

end BandedMatrix

open BandedMatrix

theorem LevRec_congr (w : Nat) (P T : List Char) (M N : BandedMatrix) (i j : Int)
    (h1 : N.get (i - 1) j = M.get (i - 1) j) (h2 : N.get i (j - 1) = M.get i (j - 1))
    (h3 : N.get (i - 1) (j - 1) = M.get (i - 1) (j - 1)) :
    LevRec w P T N i j = LevRec w P T M i j := by
  simp [LevRec, h1, h2, h3]

/-- Invariant of the inner loop of `runDPFill` after `K` offsets. -/
theorem fillRow_inv (w band : Nat) (P T : List Char) (row : Int) (M : BandedMatrix)
    (hbw : M.bw = band + 1) (K : Nat) (hK : K ≤ 2 * band + 1) :
    ((List.range K).foldl (fillCell w band P T row) M).bw = M.bw ∧
    (∀ i j, (i ≠ row ∨ j ≤ 0 ∨ j < row - band ∨ row + K - band ≤ j) →
      ((List.range K).foldl (fillCell w band P T row) M).get i j = M.get i j) ∧
    (∀ j, 1 ≤ j → row - band ≤ j → j < row + K - band →
      ((List.range K).foldl (fillCell w band P T row) M).get row j =
        castT w (LevRec w P T ((List.range K).foldl (fillCell w band P T row) M) row j)) := by
  induction K with
  | zero =>
    refine ⟨rfl, fun _ _ _ => rfl, ?_⟩
    intro j h1 h2 h3
    simp at h3; omega
  | succ K ih =>
    obtain ⟨ih1, ih2, ih3⟩ := ih (by omega)
    rw [List.range_succ, List.foldl_append]
    simp only [List.foldl_cons, List.foldl_nil]
    generalize (List.range K).foldl (fillCell w band P T row) M = N at ih1 ih2 ih3 ⊢
    unfold fillCell
    simp only []
    by_cases hskip : row + ((K : Int) - band) ≤ 0
    · rw [if_pos hskip]
      refine ⟨ih1, ?_, ?_⟩
      · intro i j h
        apply ih2; push_cast at h; omega
      · intro j h1 h2 h3
        apply ih3 j h1 h2; push_cast at h3; omega
    · rw [if_neg hskip]
      have hcor : N.inCorridor row (row + ((K : Int) - band)) = true := by
        rw [inCorridor_iff, ih1, hbw]; push_cast; omega
      refine ⟨by simp [ih1], ?_, ?_⟩
      · intro i j h
        rw [get_set_ne]
        · apply ih2; push_cast at h; omega
        · push_cast at h; omega
      · intro j h1 h2 h3
        push_cast at h3
        have hcongr : LevRec w P T (N.set row (row + ((K : Int) - band))
            (castT w (LevRec w P T N row (row + ((K : Int) - band))))) row j
            = LevRec w P T N row j := by
          apply LevRec_congr <;> apply get_set_ne <;> omega
        rw [hcongr]
        by_cases hj : j = row + ((K : Int) - band)
        · subst hj
          exact get_set_self _ _ _ _ hcor
        · rw [get_set_ne _ _ _ _ _ _ (Or.inr hj)]
          apply ih3 j h1 h2; omega

/-- Invariant of the outer loop of `runDPFill` after `r` rows. -/
theorem fillRows_inv (w band : Nat) (P T : List Char) (M : BandedMatrix)
    (hbw : M.bw = band + 1) (r : Nat) :
    ((List.range r).foldl (fillRow w band P T) M).bw = M.bw ∧
    (∀ i j, ¬ interior band r i j →
      ((List.range r).foldl (fillRow w band P T) M).get i j = M.get i j) ∧
    (∀ i j, interior band r i j →
      ((List.range r).foldl (fillRow w band P T) M).get i j =
        castT w (LevRec w P T ((List.range r).foldl (fillRow w band P T) M) i j)) := by
  induction r with
  | zero =>
    refine ⟨rfl, fun _ _ _ => rfl, ?_⟩
    intro i j h
    simp [interior] at h; omega
  | succ r ih =>
    obtain ⟨ih1, ih2, ih3⟩ := ih
    rw [List.range_succ, List.foldl_append]
    simp only [List.foldl_cons, List.foldl_nil]
    generalize (List.range r).foldl (fillRow w band P T) M = N at ih1 ih2 ih3 ⊢
    obtain ⟨f1, f2, f3⟩ := fillRow_inv w band P T ((r : Int) + 1) N (ih1.trans hbw)
      (2 * band + 1) le_rfl
    unfold fillRow
    generalize (List.range (2 * band + 1)).foldl (fillCell w band P T ((r : Int) + 1)) N = N2
      at f1 f2 f3 ⊢
    refine ⟨f1.trans ih1, ?_, ?_⟩
    · intro i j h
      rw [f2, ih2]
      · intro h2; apply h; simp only [interior] at h2 ⊢; push_cast; omega
      · simp only [interior] at h; push_cast at h ⊢; omega
    · intro i j h
      simp only [interior] at h; push_cast at h
      by_cases hi : i = (r : Int) + 1
      · subst hi
        apply f3 <;> push_cast <;> omega
      · have hint : interior band r i j := by simp only [interior]; omega
        have hcongr : LevRec w P T N2 i j = LevRec w P T N i j := by
          apply LevRec_congr <;> apply f2 <;> omega
        rw [hcongr, f2 _ _ (Or.inl hi)]
        exact ih3 i j hint

theorem initBorders_spec (w band m : Nat) (M : BandedMatrix) (hbw : M.bw = band + 1) :
    (initBorders w band m M).bw = band + 1 ∧
    (initBorders w band m M).get 0 0 = 0 ∧
    (∀ j : Nat, 1 ≤ j → j ≤ band → (initBorders w band m M).get 0 j = castT w j) ∧
    (∀ i : Nat, 1 ≤ i → i ≤ band → (initBorders w band m M).get i 0 = castT w i) ∧
    (∀ c : Nat, c < m - band →
      (initBorders w band m M).get ((c : Int) + (band + 1)) c = sentinel w band c) ∧
    (∀ r : Nat, r < m →
      (initBorders w band m M).get r ((r : Int) + (band + 1)) = sentinel w band r) := by
  unfold initBorders initRightBand initLeftBand initFirstCol initFirstRow
  have h0bw : (M.set 0 0 0).bw = band + 1 := by simp [hbw]
  have h0 : (M.set 0 0 0).get 0 0 = 0 := by
    apply get_set_self; rw [inCorridor_iff]; omega
  generalize M.set 0 0 0 = M0 at h0bw h0 ⊢
  obtain ⟨a1, a2, a3⟩ := foldl_set_range (fun _ => 0) (fun c => (c : Int) + 1)
    (fun c => castT w ((c : Int) + 1)) band M0
  generalize (List.range band).foldl (fun M (c : Nat) => M.set 0 ((c : Int) + 1)
    (castT w ((c : Int) + 1))) M0 = M1 at a1 a2 a3 ⊢
  obtain ⟨b1, b2, b3⟩ := foldl_set_range (fun r => (r : Int) + 1) (fun _ => 0)
    (fun r => castT w ((r : Int) + 1)) band M1
  generalize (List.range band).foldl (fun M (r : Nat) => M.set ((r : Int) + 1) 0
    (castT w ((r : Int) + 1))) M1 = M2 at b1 b2 b3 ⊢
  obtain ⟨c1, c2, c3⟩ := foldl_set_range (fun c => (c : Int) + (band + 1)) (fun c => (c : Int))
    (fun c => sentinel w band c) (m - band) M2
  generalize (List.range (m - band)).foldl (fun M (c : Nat) => M.set ((c : Int) + (band + 1)) c
    (sentinel w band c)) M2 = M3 at c1 c2 c3 ⊢
  obtain ⟨d1, d2, d3⟩ := foldl_set_range (fun r => (r : Int)) (fun r => (r : Int) + (band + 1))
    (fun r => sentinel w band r) m M3
  generalize (List.range m).foldl (fun M (r : Nat) => M.set r ((r : Int) + (band + 1))
    (sentinel w band r)) M3 = M4 at d1 d2 d3 ⊢
  have bw1 : M1.bw = band + 1 := a1.trans h0bw
  have bw2 : M2.bw = band + 1 := b1.trans bw1
  have bw3 : M3.bw = band + 1 := c1.trans bw2
  refine ⟨d1.trans bw3, ?_, ?_, ?_, ?_, ?_⟩
  · rw [d2, c2, b2, a2, h0]
    all_goals intro k hk; omega
  · intro j hj1 hj2
    rw [d2, c2, b2]
    · have := a3 (j - 1) (by omega) (by rw [inCorridor_iff, h0bw]; omega) (by intro k2 h1 h2; omega)
      have e : ((j - 1 : Nat) : Int) + 1 = j := by omega
      rw [e] at this; exact this
    all_goals intro k hk; omega
  · intro i hi1 hi2
    rw [d2, c2]
    · have := b3 (i - 1) (by omega) (by rw [inCorridor_iff, bw1]; omega) (by intro k2 h1 h2; omega)
      have e : ((i - 1 : Nat) : Int) + 1 = i := by omega
      rw [e] at this; exact this
    all_goals intro k hk; omega
  · intro c hc
    rw [d2]
    · exact c3 c hc (by rw [inCorridor_iff, bw2]; omega) (by intro k2 h1 h2; omega)
    · intro k hk; omega
  · intro r hr
    exact d3 r hr (by rw [inCorridor_iff, bw3]; omega) (by intro k2 h1 h2; omega)

theorem lev_nil_left (ys : List Char) : lev [] ys = ys.length := by
  induction ys with
  | nil => simp [lev]
  | cons y ys ih => simp [lev] at ih ⊢; omega

theorem lev_nil_right (xs : List Char) : lev xs [] = xs.length := by
  induction xs with
  | nil => simp [lev]
  | cons x xs ih => simp [lev] at ih ⊢; omega

theorem lev_cons_cons (x : Char) (xs : List Char) (y : Char) (ys : List Char) :
    lev (x :: xs) (y :: ys) =
      min (1 + lev xs (y :: ys)) (min (1 + lev (x :: xs) ys) (subst x y + lev xs ys)) := by
  simp [lev, subst]

theorem min_nine (d e t1 t2 t3 t4 t5 t6 t7 t8 t9 : Nat) :
    min (1 + min (1 + t1) (min (1 + t2) (d + t3)))
      (min (1 + min (1 + t4) (min (1 + t5) (d + t6)))
        (e + min (1 + t7) (min (1 + t8) (d + t9)))) =
    min (1 + min (1 + t1) (min (1 + t4) (e + t7)))
      (min (1 + min (1 + t2) (min (1 + t5) (e + t8)))
        (d + min (1 + t3) (min (1 + t6) (e + t9)))) := by
  simp only [← Nat.add_min_add_left]
  apply le_antisymm <;> simp only [le_min_iff] <;> refine ⟨?_, ⟨?_, ?_, ?_⟩, ?_⟩ <;>
    simp only [min_le_iff] <;> omega

/-- The recurrence of the Levenshtein distance at the last characters. -/
theorem lev_snoc_snoc (xs ys : List Char) (a b : Char) :
    lev (xs ++ [a]) (ys ++ [b]) =
      min (1 + lev xs (ys ++ [b])) (min (1 + lev (xs ++ [a]) ys) (subst a b + lev xs ys)) := by
  induction xs generalizing ys with
  | nil =>
    induction ys with
    | nil => simp [lev_cons_cons, lev_nil_left, lev_nil_right]
    | cons y ys ih =>
      simp only [List.nil_append, List.cons_append, lev_cons_cons, lev_nil_left, lev_nil_right,
        List.length_cons, List.length_append, List.length_nil] at ih ⊢
      omega
  | cons x xs ihx =>
    induction ys with
    | nil =>
      have h := ihx []
      simp only [List.nil_append, List.cons_append, lev_cons_cons, lev_nil_left, lev_nil_right,
        List.length_cons, List.length_append, List.length_nil] at h ⊢
      omega
    | cons y ys ihy =>
      have h1 := ihx (y :: ys)
      have h2 := ihx ys
      simp only [List.cons_append] at h1 ihy ⊢
      rw [lev_cons_cons, h1, ihy, h2, lev_cons_cons x xs y (ys ++ [b]),
        lev_cons_cons x (xs ++ [a]) y ys, lev_cons_cons x xs y ys]
      exact min_nine _ _ _ _ _ _ _ _ _ _ _

theorem lev_self (xs : List Char) : lev xs xs = 0 := by
  induction xs with
  | nil => simp [lev]
  | cons x xs ih =>
    rw [lev_cons_cons, ih]
    simp [subst]

theorem lev_cons_le (x : Char) (xs ys : List Char) : lev (x :: xs) ys ≤ 1 + lev xs ys := by
  cases ys with
  | nil => rw [lev_nil_right, lev_nil_right]; simp; omega
  | cons y ys => rw [lev_cons_cons]; omega

theorem lev_append_left_le (zs xs : List Char) : lev (zs ++ xs) xs ≤ zs.length := by
  induction zs with
  | nil => simp [lev_self]
  | cons z zs ih =>
    have := lev_cons_le z (zs ++ xs) xs
    simp only [List.cons_append, List.length_cons]
    omega

/-- The unbanded distance is at least the surplus of any one symbol. -/
theorem lev_ge_count (a : Char) (n : Nat) :
    ∀ xs ys : List Char, xs.length + ys.length = n →
      xs.count a ≤ ys.count a + lev xs ys := by
  induction n using Nat.strong_induction_on with
  | _ n ih =>
    intro xs ys hn
    cases xs with
    | nil => simp
    | cons x xs =>
      cases ys with
      | nil =>
        rw [lev_nil_right]
        have := List.count_le_length a (x :: xs)
        simp only [List.count_nil]; omega
      | cons y ys =>
        simp only [List.length_cons] at hn
        have h1 := ih (xs.length + (y :: ys).length) (by simp only [List.length_cons]; omega)
          xs (y :: ys) rfl
        have h2 := ih ((x :: xs).length + ys.length) (by simp only [List.length_cons]; omega)
          (x :: xs) ys rfl
        have h3 := ih (xs.length + ys.length) (by omega) xs ys rfl
        have hcx : (x :: xs).count a = xs.count a + (if x = a then 1 else 0) := by
          simp [List.count_cons]
        have hcy : (y :: ys).count a = ys.count a + (if y = a then 1 else 0) := by
          simp [List.count_cons]
        have hkey : (if x = a then 1 else 0) ≤ (if y = a then 1 else 0) + subst x y := by
          unfold subst
          by_cases hx : x = a
          · by_cases hy : y = a
            · rw [if_pos hx, if_pos hy]; omega
            · have hxy : ¬ x = y := fun h => hy (h ▸ hx)
              rw [if_pos hx, if_neg hy, if_neg hxy]
          · rw [if_neg hx]; omega
        have hone : (if x = a then 1 else 0) ≤ 1 := by split <;> omega
        rw [lev_cons_cons]
        rw [hcx] at h2 ⊢
        rw [hcy] at h1 ⊢
        generalize (if x = a then 1 else 0) = cx at *
        generalize (if y = a then 1 else 0) = cy at *
        generalize subst x y = sxy at *
        omega

/-! ## The unbanded distance on prefixes -/

theorem charAt_eq (s : List Char) (i : Nat) (h : i < s.length) :
    charAt s (i : Int) = s.get ⟨i, h⟩ := by
  unfold charAt
  rw [if_neg (by omega)]
  simp [List.getD_eq_getElem?_getD, List.getElem?_eq_getElem h]

theorem take_succ_snoc (s : List Char) (i : Nat) (h : i < s.length) :
    s.take (i + 1) = s.take i ++ [charAt s (i : Int)] := by
  rw [charAt_eq s i h, List.take_succ]
  simp [List.getElem?_eq_getElem h]

theorem mismatchFlag_eq (P T : List Char) (i j : Nat) :
    mismatchFlag P T ((i : Int) + 1) ((j : Int) + 1) = subst (charAt P i) (charAt T j) := by
  simp [mismatchFlag, subst]

theorem lev_take_zero_left (P T : List Char) (j : Nat) (hj : j ≤ T.length) :
    lev (P.take 0) (T.take j) = j := by
  simp [lev_nil_left, hj]

theorem lev_take_zero_right (P T : List Char) (i : Nat) (hi : i ≤ P.length) :
    lev (P.take i) (T.take 0) = i := by
  simp [lev_nil_right, hi]

/-- The Wagner–Fischer recurrence of the unbanded distance on prefixes. -/
theorem lev_take_succ (P T : List Char) (i j : Nat) (hi : i < P.length) (hj : j < T.length) :
    lev (P.take (i + 1)) (T.take (j + 1)) =
      min (1 + lev (P.take i) (T.take (j + 1)))
        (min (1 + lev (P.take (i + 1)) (T.take j))
          (mismatchFlag P T ((i : Int) + 1) ((j : Int) + 1) + lev (P.take i) (T.take j))) := by
  rw [mismatchFlag_eq]
  conv_lhs => rw [take_succ_snoc P i hi, take_succ_snoc T j hj]
  rw [lev_snoc_snoc, ← take_succ_snoc P i hi, ← take_succ_snoc T j hj]

theorem mismatchFlag_le_one (P T : List Char) (i j : Int) : mismatchFlag P T i j ≤ 1 := by
  unfold mismatchFlag; split <;> omega

theorem lev_take_le_max (P T : List Char) (i : Nat) :
    ∀ j : Nat, i ≤ P.length → j ≤ T.length → lev (P.take i) (T.take j) ≤ max i j := by
  induction i with
  | zero => intro j _ hj; rw [lev_take_zero_left P T j hj]; omega
  | succ i ih =>
    intro j hi hj
    cases j with
    | zero => rw [lev_take_zero_right P T _ hi]; omega
    | succ j =>
      rw [lev_take_succ P T i j (by omega) (by omega)]
      have := ih j (by omega) (by omega)
      have := mismatchFlag_le_one P T ((i : Int) + 1) ((j : Int) + 1)
      omega

theorem lev_take_ge_diff (P T : List Char) (n : Nat) :
    ∀ i j : Nat, i + j = n → i ≤ P.length → j ≤ T.length →
      i ≤ j + lev (P.take i) (T.take j) ∧ j ≤ i + lev (P.take i) (T.take j) := by
  induction n using Nat.strong_induction_on with
  | _ n ih =>
    intro i j hn hi hj
    cases i with
    | zero => rw [lev_take_zero_left P T j hj]; omega
    | succ i =>
      cases j with
      | zero => rw [lev_take_zero_right P T _ hi]; omega
      | succ j =>
        rw [lev_take_succ P T i j (by omega) (by omega)]
        have h1 := ih (i + (j + 1)) (by omega) i (j + 1) rfl (by omega) (by omega)
        have h2 := ih (i + 1 + j) (by omega) (i + 1) j rfl (by omega) (by omega)
        have h3 := ih (i + j) (by omega) i j rfl (by omega) (by omega)
        omega

/-! ## The matrix after `runDPFill` -/

/-- What `runDPFill` leaves in the matrix: the borders, the two sentinel
diagonals, and the recurrence on every interior corridor cell. -/
theorem runDPFill_spec (w band : Nat) (P T : List Char) (M : BandedMatrix)
    (hbw : M.bw = band + 1) :
    (runDPFill w band P T M).bw = band + 1 ∧
    (runDPFill w band P T M).get 0 0 = 0 ∧
    (∀ j : Nat, 1 ≤ j → j ≤ band → (runDPFill w band P T M).get 0 j = castT w j) ∧
    (∀ i : Nat, 1 ≤ i → i ≤ band → (runDPFill w band P T M).get i 0 = castT w i) ∧
    (∀ c : Nat, c < P.length - band →
      (runDPFill w band P T M).get ((c : Int) + (band + 1)) c = sentinel w band c) ∧
    (∀ r : Nat, r < P.length →
      (runDPFill w band P T M).get r ((r : Int) + (band + 1)) = sentinel w band r) ∧
    (∀ i j, interior band P.length i j →
      (runDPFill w band P T M).get i j =
        castT w (LevRec w P T (runDPFill w band P T M) i j)) := by
  obtain ⟨b0, b1, b2, b3, b4, b5⟩ := initBorders_spec w band P.length M hbw
  obtain ⟨f1, f2, f3⟩ := fillRows_inv w band P T (initBorders w band P.length M) b0 P.length
  unfold runDPFill fillMatrix
  refine ⟨f1.trans b0, ?_, ?_, ?_, ?_, ?_, f3⟩
  · rw [f2, b1]; simp only [interior]; omega
  · intro j h1 h2; rw [f2, b2 j h1 h2]; simp only [interior]; omega
  · intro i h1 h2; rw [f2, b3 i h1 h2]; simp only [interior]; omega
  · intro c hc; rw [f2, b4 c hc]; simp only [interior]; omega
  · intro r hr; rw [f2, b5 r hr]; simp only [interior]; omega

theorem castT_natCast_le (w n : Nat) : castT w (n : Int) ≤ n := by
  unfold castT
  have h : ((n : Int) % (2 ^ w : Int)) = ((n % 2 ^ w : Nat) : Int) := by push_cast; rfl
  rw [h, Int.toNat_ofNat]
  exact Nat.mod_le _ _

theorem castT_natCast (w n : Nat) (h : n < 2 ^ w) : castT w (n : Int) = n := by
  unfold castT
  have h2 : ((n : Int) % (2 ^ w : Int)) = ((n % 2 ^ w : Nat) : Int) := by push_cast; rfl
  rw [h2, Int.toNat_ofNat, Nat.mod_eq_of_lt h]

theorem castT_lt (w : Nat) (v : Int) : castT w v < 2 ^ w := by
  unfold castT
  have hpos : (0 : Int) < 2 ^ w := by positivity
  have h1 := Int.emod_lt_of_pos v hpos
  have h2 := Int.emod_nonneg v (ne_of_gt hpos)
  have h3 : ((2 ^ w : Nat) : Int) = (2 ^ w : Int) := by push_cast; rfl
  omega

theorem addT_le (w a b : Nat) : addT w a b ≤ a + b := by
  unfold addT; split
  · exact le_rfl
  · exact Nat.mod_le _ _

theorem addT_eq (w a b : Nat) (h : a + b < 2 ^ w) : addT w a b = a + b := by
  unfold addT; split
  · rfl
  · exact Nat.mod_eq_of_lt h

theorem sentinel_eq (w band index : Nat) (h : index + band + 2 ≤ 2 ^ w) :
    sentinel w band (index : Int) = 2 ^ w - 2 - index - band := by
  unfold sentinel maxT
  have hp : 1 ≤ 2 ^ w := Nat.one_le_two_pow
  have e : (((2 ^ w - 1 : Nat) : Int) - (index : Int) - (band : Int) - 1)
      = ((2 ^ w - 2 - index - band : Nat) : Int) := by omega
  rw [e]
  exact castT_natCast _ _ (by omega)

/-- Upper bound on the corridor cells after the fill: `cell(i, j) ≤ max i j`. -/
theorem runDPFill_le_max (w band : Nat) (P T : List Char) (M : BandedMatrix)
    (hbw : M.bw = band + 1) (i : Nat) :
    ∀ j : Nat, i ≤ P.length → j ≤ i + band → i ≤ j + band →
      (runDPFill w band P T M).get i j ≤ max i j := by
  obtain ⟨_, s0, s1, s2, _, _, s5⟩ := runDPFill_spec w band P T M hbw
  induction i with
  | zero =>
    intro j _ hj _
    rcases Nat.eq_zero_or_pos j with h | h
    · subst h; simp [s0]
    · have := s1 j h (by omega)
      have := castT_natCast_le w j
      simp only [Nat.cast_zero] at *
      omega
  | succ i ih =>
    intro j hi hj1 hj2
    cases j with
    | zero =>
      have := s2 (i + 1) (by omega) (by omega)
      have := castT_natCast_le w (i + 1)
      simp only [Nat.cast_zero] at *
      omega
    | succ j =>
      have hint : interior band P.length ((i + 1 : Nat) : Int) ((j + 1 : Nat) : Int) := by
        simp only [interior]; omega
      rw [s5 _ _ hint]
      have h1 := castT_natCast_le w
        (LevRec w P T (runDPFill w band P T M) ((i + 1 : Nat) : Int) ((j + 1 : Nat) : Int))
      have h2 : LevRec w P T (runDPFill w band P T M) ((i + 1 : Nat) : Int) ((j + 1 : Nat) : Int)
          ≤ (runDPFill w band P T M).get i j + 1 := by
        unfold LevRec
        have e1 : ((i + 1 : Nat) : Int) - 1 = i := by omega
        have e2 : ((j + 1 : Nat) : Int) - 1 = j := by omega
        rw [e1, e2]
        have := addT_le w ((runDPFill w band P T M).get i j)
          (mismatchFlag P T ((i + 1 : Nat) : Int) ((j + 1 : Nat) : Int))
        have := mismatchFlag_le_one P T ((i + 1 : Nat) : Int) ((j + 1 : Nat) : Int)
        omega
      have h3 := ih j (by omega) (by omega) (by omega)
      omega

/-- Under the width assumption the recurrence of `runDPFill` holds in exact
arithmetic on every interior corridor cell. -/
theorem runDPFill_rec_nat (w band : Nat) (P T : List Char) (M : BandedMatrix)
    (hbw : M.bw = band + 1) (hw : P.length + band + 2 ≤ 2 ^ w) (i j : Nat)
    (hi : i < P.length) (hj1 : j ≤ i + band) (hj2 : i ≤ j + band) :
    (runDPFill w band P T M).get ((i : Int) + 1) ((j : Int) + 1) =
      min (min ((runDPFill w band P T M).get i ((j : Int) + 1) + 1)
               ((runDPFill w band P T M).get ((i : Int) + 1) j + 1))
        ((runDPFill w band P T M).get i j + mismatchFlag P T ((i : Int) + 1) ((j : Int) + 1)) := by
  obtain ⟨_, _, _, _, s3, s4, s5⟩ := runDPFill_spec w band P T M hbw
  have hint : interior band P.length ((i : Int) + 1) ((j : Int) + 1) := by
    simp only [interior]; omega
  rw [s5 _ _ hint]
  have hd := runDPFill_le_max w band P T M hbw i j (by omega) hj1 hj2
  have hf := mismatchFlag_le_one P T ((i : Int) + 1) ((j : Int) + 1)
  -- the upper neighbour: a corridor cell or the right sentinel
  have hu : (runDPFill w band P T M).get i ((j : Int) + 1) + 1 < 2 ^ w := by
    rcases Nat.lt_or_ge j (i + band) with h | h
    · have := runDPFill_le_max w band P T M hbw i (j + 1) (by omega) (by omega) (by omega)
      push_cast at this; omega
    · have e : ((j : Int) + 1) = (i : Int) + (band + 1) := by omega
      rw [e, s4 i hi, sentinel_eq w band i (by omega)]; omega
  -- the left neighbour: a corridor cell or the left sentinel
  have hl : (runDPFill w band P T M).get ((i : Int) + 1) j + 1 < 2 ^ w := by
    rcases Nat.lt_or_ge i (j + band) with h | h
    · have := runDPFill_le_max w band P T M hbw (i + 1) j (by omega) (by omega) (by omega)
      push_cast at this; omega
    · have e : ((i : Int) + 1) = (j : Int) + (band + 1) := by omega
      rw [e, s3 j (by omega), sentinel_eq w band j (by omega)]; omega
  unfold LevRec
  have e1 : ((i : Int) + 1) - 1 = i := by omega
  have e2 : ((j : Int) + 1) - 1 = j := by omega
  rw [e1, e2, addT_eq w _ 1 hu, addT_eq w _ 1 hl, addT_eq w _ _ (by omega)]
  exact castT_natCast _ _ (by omega)

/-- A corridor cell is never below the unbanded distance of the prefixes. -/
theorem runDPFill_ge_lev (w band : Nat) (P T : List Char) (M : BandedMatrix)
    (hbw : M.bw = band + 1) (hT : P.length + band ≤ T.length)
    (hnw : P.length + band + 2 ≤ 2 ^ w) (hs : 2 * (P.length + band) ≤ 2 ^ w) (n : Nat) :
    ∀ i j : Nat, i + j = n → i ≤ P.length → j ≤ i + band → i ≤ j + band →
      lev (P.take i) (T.take j) ≤ (runDPFill w band P T M).get i j := by
  obtain ⟨_, s0, s1, s2, s3, s4, _⟩ := runDPFill_spec w band P T M hbw
  induction n using Nat.strong_induction_on with
  | _ n ih =>
    intro i j hn hi hj1 hj2
    cases i with
    | zero =>
      rw [lev_take_zero_left P T j (by omega)]
      rcases Nat.eq_zero_or_pos j with h | h
      · omega
      · have := s1 j h (by omega)
        rw [castT_natCast w j (by omega)] at this
        simp only [Nat.cast_zero] at *
        omega
    | succ i =>
      cases j with
      | zero =>
        rw [lev_take_zero_right P T _ hi]
        have := s2 (i + 1) (by omega) (by omega)
        rw [castT_natCast w (i + 1) (by omega)] at this
        simp only [Nat.cast_zero] at *
        omega
      | succ j =>
        have hL := lev_take_le_max P T (i + 1) (j + 1) hi (by omega)
        have hrec := runDPFill_rec_nat w band P T M hbw (by omega) i j (by omega)
          (by omega) (by omega)
        push_cast
        rw [hrec]
        rw [lev_take_succ P T i j (by omega) (by omega)] at hL ⊢
        have hd := ih (i + j) (by omega) i j rfl (by omega) (by omega) (by omega)
        have hu : lev (P.take i) (T.take (j + 1)) ≤ (runDPFill w band P T M).get i ((j : Int) + 1)
            ∨ (runDPFill w band P T M).get i ((j : Int) + 1) + 1 ≥ max (i + 1) (j + 1) := by
          rcases Nat.lt_or_ge j (i + band) with h | h
          · left
            have := ih (i + (j + 1)) (by omega) i (j + 1) rfl (by omega) (by omega) (by omega)
            push_cast at this; exact this
          · right
            have e : ((j : Int) + 1) = (i : Int) + (band + 1) := by omega
            rw [e, s4 i (by omega), sentinel_eq w band i (by omega)]; omega
        have hl : lev (P.take (i + 1)) (T.take j) ≤ (runDPFill w band P T M).get ((i : Int) + 1) j
            ∨ (runDPFill w band P T M).get ((i : Int) + 1) j + 1 ≥ max (i + 1) (j + 1) := by
          rcases Nat.lt_or_ge i (j + band) with h | h
          · left
            have := ih (i + 1 + j) (by omega) (i + 1) j rfl (by omega) (by omega) (by omega)
            push_cast at this; exact this
          · right
            have e : ((i : Int) + 1) = (j : Int) + (band + 1) := by omega
            rw [e, s3 j (by omega), sentinel_eq w band j (by omega)]; omega
        omega

/-- A corridor cell is never below the unbanded distance of the prefixes capped
at `band + 1`, as soon as every sentinel is at least `band`. -/
theorem runDPFill_ge_min (w band : Nat) (P T : List Char) (M : BandedMatrix)
    (hbw : M.bw = band + 1) (hT : P.length + band ≤ T.length)
    (hnw : P.length + band + 2 ≤ 2 ^ w) (hs : P.length + 2 * band + 1 ≤ 2 ^ w) (n : Nat) :
    ∀ i j : Nat, i + j = n → i ≤ P.length → j ≤ i + band → i ≤ j + band →
      min (lev (P.take i) (T.take j)) (band + 1) ≤ (runDPFill w band P T M).get i j := by
  obtain ⟨_, s0, s1, s2, s3, s4, _⟩ := runDPFill_spec w band P T M hbw
  induction n using Nat.strong_induction_on with
  | _ n ih =>
    intro i j hn hi hj1 hj2
    cases i with
    | zero =>
      rw [lev_take_zero_left P T j (by omega)]
      rcases Nat.eq_zero_or_pos j with h | h
      · omega
      · have := s1 j h (by omega)
        rw [castT_natCast w j (by omega)] at this
        simp only [Nat.cast_zero] at *
        omega
    | succ i =>
      cases j with
      | zero =>
        rw [lev_take_zero_right P T _ hi]
        have := s2 (i + 1) (by omega) (by omega)
        rw [castT_natCast w (i + 1) (by omega)] at this
        simp only [Nat.cast_zero] at *
        omega
      | succ j =>
        have hL := lev_take_le_max P T (i + 1) (j + 1) hi (by omega)
        have hrec := runDPFill_rec_nat w band P T M hbw (by omega) i j (by omega)
          (by omega) (by omega)
        push_cast
        rw [hrec]
        rw [lev_take_succ P T i j (by omega) (by omega)] at hL ⊢
        have hd := ih (i + j) (by omega) i j rfl (by omega) (by omega) (by omega)
        have hu : min (lev (P.take i) (T.take (j + 1))) (band + 1)
              ≤ (runDPFill w band P T M).get i ((j : Int) + 1)
            ∨ (runDPFill w band P T M).get i ((j : Int) + 1) + 1 ≥ band + 1 := by
          rcases Nat.lt_or_ge j (i + band) with h | h
          · left
            have := ih (i + (j + 1)) (by omega) i (j + 1) rfl (by omega) (by omega) (by omega)
            push_cast at this; exact this
          · right
            have e : ((j : Int) + 1) = (i : Int) + (band + 1) := by omega
            rw [e, s4 i (by omega), sentinel_eq w band i (by omega)]; omega
        have hl : min (lev (P.take (i + 1)) (T.take j)) (band + 1)
              ≤ (runDPFill w band P T M).get ((i : Int) + 1) j
            ∨ (runDPFill w band P T M).get ((i : Int) + 1) j + 1 ≥ band + 1 := by
          rcases Nat.lt_or_ge i (j + band) with h | h
          · left
            have := ih (i + 1 + j) (by omega) (i + 1) j rfl (by omega) (by omega) (by omega)
            push_cast at this; exact this
          · right
            have e : ((i : Int) + 1) = (j : Int) + (band + 1) := by omega
            rw [e, s3 j (by omega), sentinel_eq w band j (by omega)]; omega
        omega

/-- Band-limited exactness on cells: where the unbanded distance of the
prefixes is at most `band`, the cell holds exactly that distance. -/
theorem runDPFill_eq_lev (w band : Nat) (P T : List Char) (M : BandedMatrix)
    (hbw : M.bw = band + 1) (hT : P.length + band ≤ T.length)
    (hnw : P.length + band + 2 ≤ 2 ^ w) (hs : P.length + 2 * band + 1 ≤ 2 ^ w) (n : Nat) :
    ∀ i j : Nat, i + j = n → i ≤ P.length → j ≤ T.length →
      lev (P.take i) (T.take j) ≤ band →
      (runDPFill w band P T M).get i j = lev (P.take i) (T.take j) := by
  obtain ⟨_, s0, s1, s2, _, _, _⟩ := runDPFill_spec w band P T M hbw
  induction n using Nat.strong_induction_on with
  | _ n ih =>
    intro i j hn hi hj hb
    have hdiff := lev_take_ge_diff P T (i + j) i j rfl hi hj
    have hge := runDPFill_ge_min w band P T M hbw hT hnw hs (i + j) i j rfl hi (by omega) (by omega)
    cases i with
    | zero =>
      rw [lev_take_zero_left P T j (by omega)] at hb ⊢
      rcases Nat.eq_zero_or_pos j with h | h
      · subst h; simpa using s0
      · have := s1 j h (by omega)
        rw [castT_natCast w j (by omega)] at this
        simpa using this
    | succ i =>
      cases j with
      | zero =>
        rw [lev_take_zero_right P T _ hi] at hb ⊢
        have := s2 (i + 1) (by omega) (by omega)
        rw [castT_natCast w (i + 1) (by omega)] at this
        simpa using this
      | succ j =>
        have hrec := runDPFill_rec_nat w band P T M hbw (by omega) i j (by omega)
          (by omega) (by omega)
        push_cast at hge ⊢
        rw [hrec] at hge ⊢
        rw [lev_take_succ P T i j (by omega) (by omega)] at hb hge hdiff ⊢
        have hd := ih (i + j) (by omega) i j rfl (by omega) (by omega)
        have hu := ih (i + (j + 1)) (by omega) i (j + 1) rfl (by omega) (by omega)
        have hl := ih (i + 1 + j) (by omega) (i + 1) j rfl (by omega) (by omega)
        push_cast at hu hl
        omega

/-! ## `getEditDist` -/

/-- The scan of `getEditDist` after `K` offsets, from any start value. -/
theorem getEditDist_scan (M : BandedMatrix) (band m init K : Nat) :
    (List.range K).foldl
        (fun minimum (k : Nat) => min minimum (M.get m ((m : Int) + ((k : Int) - band)))) init
      ≤ init ∧
    (∀ k, k < K →
      (List.range K).foldl
        (fun minimum (k : Nat) => min minimum (M.get m ((m : Int) + ((k : Int) - band)))) init
      ≤ M.get m ((m : Int) + ((k : Int) - band))) ∧
    ((List.range K).foldl
        (fun minimum (k : Nat) => min minimum (M.get m ((m : Int) + ((k : Int) - band)))) init
      = init ∨
     ∃ k, k < K ∧
      (List.range K).foldl
        (fun minimum (k : Nat) => min minimum (M.get m ((m : Int) + ((k : Int) - band)))) init
      = M.get m ((m : Int) + ((k : Int) - band))) := by
  induction K with
  | zero => simp
  | succ K ih =>
    rw [List.range_succ, List.foldl_append]
    simp only [List.foldl_cons, List.foldl_nil]
    generalize (List.range K).foldl
        (fun minimum (k : Nat) => min minimum (M.get m ((m : Int) + ((k : Int) - band)))) init = R
      at ih ⊢
    obtain ⟨h1, h2, h3⟩ := ih
    refine ⟨by omega, ?_, ?_⟩
    · intro k hk
      rcases Nat.lt_succ_iff_lt_or_eq.mp hk with h | h
      · have := h2 k h; omega
      · subst h; omega
    · rcases Nat.le_total R (M.get m ((m : Int) + ((K : Int) - band))) with h | h
      · rw [min_eq_left h]
        rcases h3 with h3 | ⟨k, hk, h3⟩
        · exact Or.inl h3
        · exact Or.inr ⟨k, by omega, h3⟩
      · rw [min_eq_right h]
        exact Or.inr ⟨K, by omega, rfl⟩

/-- On a matrix whose final-row cells are values of the distance type,
`getEditDist` is a lower bound of the final-row window and is attained. -/
theorem getEditDist_min_of_le (w band m : Nat) (M : BandedMatrix)
    (hval : ∀ o : Int, -(band : Int) ≤ o → o ≤ band → M.get m ((m : Int) + o) ≤ maxT w) :
    (∀ o : Int, -(band : Int) ≤ o → o ≤ band → getEditDist w band m M ≤ M.get m ((m : Int) + o)) ∧
    (∃ o : Int, -(band : Int) ≤ o ∧ o ≤ band ∧ getEditDist w band m M = M.get m ((m : Int) + o)) := by
  obtain ⟨h1, h2, h3⟩ := getEditDist_scan M band m (maxT w) (2 * band + 1)
  unfold getEditDist
  constructor
  · intro o ho1 ho2
    have := h2 (o + band).toNat (by omega)
    have e : (((o + band).toNat : Nat) : Int) - band = o := by omega
    rw [e] at this; exact this
  · rcases h3 with h3 | ⟨k, hk, h3⟩
    · refine ⟨-(band : Int), le_rfl, by omega, ?_⟩
      have a := h2 0 (by omega)
      have b := hval (-(band : Int)) le_rfl (by omega)
      simp only [Nat.cast_zero, zero_sub] at a
      omega
    · exact ⟨(k : Int) - band, by omega, by omega, h3⟩

/-- After `runDPFill` with `m ≥ band` every cell of the final-row window
holds a value of the distance type. -/
theorem runDPFill_window_le (w band : Nat) (P T : List Char) (M : BandedMatrix)
    (hbw : M.bw = band + 1) (hm : band ≤ P.length) (o : Int)
    (ho1 : -(band : Int) ≤ o) (ho2 : o ≤ band) :
    (runDPFill w band P T M).get P.length ((P.length : Int) + o) ≤ maxT w := by
  obtain ⟨_, s0, _, s2, _, _, s5⟩ := runDPFill_spec w band P T M hbw
  have key : ∀ v : Int, castT w v ≤ maxT w := by
    intro v; have := castT_lt w v; unfold maxT; omega
  rcases Nat.eq_zero_or_pos P.length with h0 | hpos
  · have hb : band = 0 := by omega
    have ho : o = 0 := by omega
    rw [h0, ho]; simp only [Nat.cast_zero, add_zero]; rw [s0]; exact Nat.zero_le _
  · rcases Int.lt_or_le 0 ((P.length : Int) + o) with hc | hc
    · rw [s5 _ _ (by simp only [interior]; omega)]
      exact key _
    · have e : (P.length : Int) + o = 0 := by omega
      rw [e, s2 P.length hpos (by omega)]
      exact key _

/-- The result of `getEditDist` is at most the last right-hand sentinel plus
one: the final-row cell `(m, m + band)` has the sentinel cell
`(m - 1, m + band)` as its upper neighbour. -/
theorem getEditDist_le_sentinel (w band : Nat) (P T : List Char) (M : BandedMatrix)
    (hbw : M.bw = band + 1) (hm : band ≤ P.length) (hm1 : 1 ≤ P.length) :
    getEditDist w band P.length (runDPFill w band P T M)
      ≤ sentinel w band ((P.length - 1 : Nat) : Int) + 1 := by
  obtain ⟨h1, _⟩ := getEditDist_min_of_le w band P.length
    (runDPFill w band P T M) (runDPFill_window_le w band P T M hbw hm)
  obtain ⟨_, _, _, _, _, s4, s5⟩ := runDPFill_spec w band P T M hbw
  have hle := h1 (band : Int) (by omega) le_rfl
  have hint : interior band P.length (P.length : Int) ((P.length : Int) + band) := by
    simp only [interior]; omega
  rw [s5 _ _ hint] at hle
  have hc := castT_natCast_le w
    (LevRec w P T (runDPFill w band P T M) (P.length : Int) ((P.length : Int) + band))
  have hr : LevRec w P T (runDPFill w band P T M) (P.length : Int) ((P.length : Int) + band)
      ≤ (runDPFill w band P T M).get ((P.length : Int) - 1) ((P.length : Int) + band) + 1 := by
    unfold LevRec
    have := addT_le w
      ((runDPFill w band P T M).get ((P.length : Int) - 1) ((P.length : Int) + band)) 1
    omega
  have hs := s4 (P.length - 1) (by omega)
  have e1 : (((P.length - 1 : Nat) : Int)) = (P.length : Int) - 1 := by omega
  have e2 : (((P.length - 1 : Nat) : Int)) + ((band : Int) + 1) = (P.length : Int) + band := by
    omega
  rw [e2] at hs
  rw [← e1] at hr
  omega

/-! ## Theorems on `runDPFill` and `getEditDist` -/

/-- C1 (band-limited exactness) fails on the code.  With the 8-bit type (the
smallest type that holds the string sizes `251`, `254` and the band), `band =
3`, the pattern `A^251` and the text `A^248 B^6` no cost wraps
(`m + band + 2 ≤ 2^8`) and the minimum unbanded distance to a text prefix is
`3 ≤ band`, but `getEditDist` returns at most `2`: the sentinel above the cell
`(251, 254)` is `255 - 250 - 3 - 1 = 1` and wins the minimum of that cell. -/
theorem getEditDist_narrow_type_not_exact :
    3 ≤ (List.replicate 251 'A').length ∧
    (List.replicate 251 'A').length + 3 ≤ (List.replicate 248 'A' ++ List.replicate 6 'B').length ∧
    (List.replicate 251 'A').length + 3 + 2 ≤ 2 ^ 8 ∧
    lev (List.replicate 251 'A') ((List.replicate 248 'A' ++ List.replicate 6 'B').take 248) = 3 ∧
    (∀ j, j ≤ (List.replicate 251 'A').length + 3 →
      3 ≤ lev (List.replicate 251 'A')
            ((List.replicate 248 'A' ++ List.replicate 6 'B').take j)) ∧
    getEditDist 8 3 (List.replicate 251 'A').length
      (runDPFill 8 3 (List.replicate 251 'A')
        (List.replicate 248 'A' ++ List.replicate 6 'B') (initMatrix 3 0)) ≤ 2 := by
  have hlen : (List.replicate 251 'A').length = 251 := List.length_replicate ..
  have hcP : (List.replicate 251 'A').count 'A' = 251 := List.count_replicate_self ..
  have hcT : (List.replicate 248 'A' ++ List.replicate 6 'B').count 'A' = 248 := by
    rw [List.count_append, List.count_replicate_self, List.count_replicate]
    decide
  have hlow : ∀ j, 3 ≤ lev (List.replicate 251 'A')
      ((List.replicate 248 'A' ++ List.replicate 6 'B').take j) := by
    intro j
    have h1 := lev_ge_count 'A' _ (List.replicate 251 'A')
      ((List.replicate 248 'A' ++ List.replicate 6 'B').take j) rfl
    have h2 : ((List.replicate 248 'A' ++ List.replicate 6 'B').take j).count 'A'
        ≤ (List.replicate 248 'A' ++ List.replicate 6 'B').count 'A' :=
      (List.take_sublist j _).count_le 'A'
    omega
  have hlenT : (List.replicate 248 'A' ++ List.replicate 6 'B').length = 254 := by
    rw [List.length_append, List.length_replicate, List.length_replicate]
  refine ⟨by rw [hlen]; decide, by rw [hlen, hlenT], by rw [hlen]; decide, ?_,
    fun j _ => hlow j, ?_⟩
  · have h248 : (List.replicate 248 'A').length = 248 := List.length_replicate ..
    have htake : (List.replicate 248 'A' ++ List.replicate 6 'B').take 248
        = List.replicate 248 'A' := by
      rw [List.take_append_of_le_length (by rw [h248])]
      exact List.take_of_length_le (by rw [h248])
    have hup : lev (List.replicate 3 'A' ++ List.replicate 248 'A') (List.replicate 248 'A')
        ≤ 3 := by
      have := lev_append_left_le (List.replicate 3 'A') (List.replicate 248 'A')
      rw [List.length_replicate] at this
      exact this
    have hsplit : List.replicate 251 'A' = List.replicate 3 'A' ++ List.replicate 248 'A' := by
      rw [← List.replicate_add]
    have := hlow 248
    rw [htake] at this ⊢
    rw [hsplit] at this ⊢
    omega
  · have h := getEditDist_le_sentinel 8 3 (List.replicate 251 'A')
      (List.replicate 248 'A' ++ List.replicate 6 'B') (initMatrix 3 0) rfl
      (by rw [hlen]; decide) (by rw [hlen]; decide)
    rw [hlen] at h ⊢
    have hs : sentinel 8 3 ((251 - 1 : Nat) : Int) = 1 := by decide
    rw [hs] at h
    omega

/-- Band-limited exactness when the distance type has headroom.  For a
pattern of length `m ≥ band`, a text of length at least `m + band` and a
distance type in which no cost wraps (`m + band + 2 ≤ 2^w`) and no sentinel is
below `band` (`m + 2·band + 1 ≤ 2^w`), let `d` be the minimum over `j ≤ m + band` of the
unbanded Levenshtein distance between the pattern and the text prefix of
length `j`.  If `d ≤ band`, then `getEditDist` after `runDPFill` returns
exactly `d`. -/
theorem getEditDist_exact_within_band (w band : Nat) (P T : List Char) (M : BandedMatrix)
    (hbw : M.bw = band + 1) (hm : band ≤ P.length) (hT : P.length + band ≤ T.length)
    (hnw : P.length + band + 2 ≤ 2 ^ w) (hs : P.length + 2 * band + 1 ≤ 2 ^ w) (d : Nat)
    (hd : ∃ j, j ≤ P.length + band ∧ lev P (T.take j) = d)
    (hmin : ∀ j, j ≤ P.length + band → d ≤ lev P (T.take j))
    (hband : d ≤ band) :
    getEditDist w band P.length (runDPFill w band P T M) = d := by
  obtain ⟨h1, o, ho1, ho2, h2⟩ := getEditDist_min_of_le w band P.length
    (runDPFill w band P T M) (runDPFill_window_le w band P T M hbw hm)
  obtain ⟨j, hj, hjd⟩ := hd
  have hPm : P.take P.length = P := List.take_length P
  -- the optimal end column lies in the final-row window and its cell is exact
  have hdiff := lev_take_ge_diff P T (P.length + j) P.length j rfl le_rfl (by omega)
  rw [hPm, hjd] at hdiff
  have hex := runDPFill_eq_lev w band P T M hbw hT hnw hs (P.length + j) P.length j rfl le_rfl
    (by omega) (by rw [hPm, hjd]; exact hband)
  rw [hPm, hjd] at hex
  have hle := h1 ((j : Int) - P.length) (by omega) (by omega)
  rw [show (P.length : Int) + ((j : Int) - P.length) = j by omega, hex] at hle
  -- every cell of the window is at least the unbanded distance or above `band`
  have hj2 : ((P.length : Int) + o) = ((((P.length : Int) + o).toNat : Nat) : Int) := by omega
  have hge := runDPFill_ge_min w band P T M hbw hT hnw hs _ P.length ((P.length : Int) + o).toNat
    rfl le_rfl (by omega) (by omega)
  rw [← hj2, ← h2, hPm] at hge
  have := hmin ((P.length : Int) + o).toNat (by omega)
  omega

theorem getEditDist_exact_within_band_witness :
    getEditDist 16 1 "ABCD".toList.length
      (runDPFill 16 1 "ABCD".toList "AXBCD".toList (initMatrix 1 0)) = 1 :=
  getEditDist_exact_within_band 16 1 "ABCD".toList "AXBCD".toList (initMatrix 1 0)
    rfl (by decide) (by decide) (by decide) (by decide) 1 ⟨5, by decide, by decide⟩
    (by decide) (by decide)

/-- C3 (`getEditDist` is the minimum of the final-row window).  After
`runDPFill` on a pattern of length `m ≥ band`, the result of `getEditDist` is
at most `cell(m, m+o)` for every offset `o` in `[-band, band]` and equals
`cell(m, m+o)` for at least one such offset. -/
theorem getEditDist_is_window_min (w band : Nat) (P T : List Char) (M : BandedMatrix)
    (hbw : M.bw = band + 1) (hm : band ≤ P.length) :
    (∀ o : Int, -(band : Int) ≤ o → o ≤ band →
      getEditDist w band P.length (runDPFill w band P T M)
        ≤ (runDPFill w band P T M).get P.length ((P.length : Int) + o)) ∧
    (∃ o : Int, -(band : Int) ≤ o ∧ o ≤ band ∧
      getEditDist w band P.length (runDPFill w band P T M)
        = (runDPFill w band P T M).get P.length ((P.length : Int) + o)) :=
  getEditDist_min_of_le w band P.length (runDPFill w band P T M)
    (runDPFill_window_le w band P T M hbw hm)

theorem getEditDist_is_window_min_witness :
    getEditDist 16 1 "ABCD".toList.length
        (runDPFill 16 1 "ABCD".toList "AXBCD".toList (initMatrix 1 0))
      ≤ (runDPFill 16 1 "ABCD".toList "AXBCD".toList (initMatrix 1 0)).get
          "ABCD".toList.length (("ABCD".toList.length : Int) + 0) :=
  (getEditDist_is_window_min 16 1 "ABCD".toList "AXBCD".toList (initMatrix 1 0)
    rfl (by decide)).1 0 (by decide) (by decide)

/-- C4 (a band that is too small can only inflate the result) fails on the
code.  With the 8-bit type (the smallest type that holds the string sizes
`128`, `129` and the band), `band = 1`, the pattern `A^128` and the text
`B^129` no cost wraps (`m + band + 2 ≤ 2^8`), every text prefix of length
`127 .. 129` has an unbanded distance of at least `128`, but `getEditDist`
returns less: the sentinel above the cell `(128, 129)` is
`255 - 127 - 1 - 1 = 126` and wins the minimum of that cell. -/
theorem getEditDist_narrow_type_deflated :
    1 ≤ (List.replicate 128 'A').length ∧
    (List.replicate 128 'A').length + 1 ≤ (List.replicate 129 'B').length ∧
    (List.replicate 128 'A').length + 1 + 2 ≤ 2 ^ 8 ∧
    (∀ j, (List.replicate 128 'A').length - 1 ≤ j → j ≤ (List.replicate 128 'A').length + 1 →
      getEditDist 8 1 (List.replicate 128 'A').length
          (runDPFill 8 1 (List.replicate 128 'A') (List.replicate 129 'B') (initMatrix 1 0))
        < lev (List.replicate 128 'A') ((List.replicate 129 'B').take j)) := by
  have hlen : (List.replicate 128 'A').length = 128 := List.length_replicate ..
  have hcP : (List.replicate 128 'A').count 'A' = 128 := List.count_replicate_self ..
  have hcT : (List.replicate 129 'B').count 'A' = 0 := by
    rw [List.count_replicate]; decide
  have hlenT : (List.replicate 129 'B').length = 129 := List.length_replicate ..
  refine ⟨by rw [hlen]; decide, by rw [hlen, hlenT], by rw [hlen]; decide, ?_⟩
  intro j _ _
  have h1 := lev_ge_count 'A' _ (List.replicate 128 'A') ((List.replicate 129 'B').take j) rfl
  have h2 : ((List.replicate 129 'B').take j).count 'A' ≤ (List.replicate 129 'B').count 'A' :=
    (List.take_sublist j _).count_le 'A'
  have h := getEditDist_le_sentinel 8 1 (List.replicate 128 'A') (List.replicate 129 'B')
    (initMatrix 1 0) rfl (by rw [hlen]; decide) (by rw [hlen]; decide)
  rw [hlen] at h ⊢
  have hs : sentinel 8 1 ((128 - 1 : Nat) : Int) = 126 := by decide
  rw [hs] at h
  omega

/-- A band that is too small can only inflate the result when the distance
type has headroom.  For a pattern of length `m ≥ band`, a text of length at least `m + band` and a
distance type in which no cost wraps (`m + band + 2 ≤ 2^w`) and every
sentinel plus one is at least every real cost (`2·(m + band) ≤ 2^w`), the
result of `getEditDist` after `runDPFill` is never smaller than the minimum
unbanded Levenshtein distance between the pattern and a text prefix of length
`j` in `[m - band, m + band]`: some such prefix has a distance at most the
result. -/
theorem getEditDist_ge_min_lev (w band : Nat) (P T : List Char) (M : BandedMatrix)
    (hbw : M.bw = band + 1) (hm : band ≤ P.length) (hT : P.length + band ≤ T.length)
    (hnw : P.length + band + 2 ≤ 2 ^ w) (hs : 2 * (P.length + band) ≤ 2 ^ w) :
    ∃ j, P.length - band ≤ j ∧ j ≤ P.length + band ∧
      lev P (T.take j) ≤ getEditDist w band P.length (runDPFill w band P T M) := by
  obtain ⟨_, o, ho1, ho2, h2⟩ := getEditDist_min_of_le w band P.length
    (runDPFill w band P T M) (runDPFill_window_le w band P T M hbw hm)
  have hPm : P.take P.length = P := List.take_length P
  have hj2 : ((P.length : Int) + o) = ((((P.length : Int) + o).toNat : Nat) : Int) := by omega
  have hge := runDPFill_ge_lev w band P T M hbw hT hnw hs _ P.length ((P.length : Int) + o).toNat
    rfl le_rfl (by omega) (by omega)
  rw [← hj2, ← h2, hPm] at hge
  exact ⟨((P.length : Int) + o).toNat, by omega, by omega, hge⟩

theorem getEditDist_ge_min_lev_witness :
    3 ≤ getEditDist 16 1 "ABCD".toList.length
          (runDPFill 16 1 "ABCD".toList "XXABCD".toList (initMatrix 1 0)) :=
  (getEditDist_ge_min_lev 16 1 "ABCD".toList "XXABCD".toList (initMatrix 1 0)
    rfl (by decide) (by decide) (by decide) (by decide)).elim
    (fun j h => le_trans
      ((by decide : ∀ j, j ≤ 5 → 3 ≤ j → 3 ≤ lev "ABCD".toList ("XXABCD".toList.take j))
        j h.2.1 h.1) h.2.2)

/-- C9 (fill recurrence).  After `runDPFill`, every interior corridor cell
`(i, j)` with `1 ≤ i ≤ m`, `j ≥ 1` and `|j - i| ≤ band` holds the value of the
recurrence `LevRec` evaluated on the final matrix; when the distance type is
wide enough that no cost wraps (`m + band + 2 ≤ 2 ^ w`) this is
`min(cell(i-1,j)+1, cell(i,j-1)+1, cell(i-1,j-1) + mismatchFlag)` in exact
arithmetic. -/
theorem runDPFill_recurrence (w band : Nat) (P T : List Char) (M : BandedMatrix)
    (hbw : M.bw = band + 1) (i j : Int) (hint : interior band P.length i j) :
    (runDPFill w band P T M).get i j
        = castT w (LevRec w P T (runDPFill w band P T M) i j) ∧
    (P.length + band + 2 ≤ 2 ^ w →
      (runDPFill w band P T M).get i j =
        min (min ((runDPFill w band P T M).get (i - 1) j + 1)
                 ((runDPFill w band P T M).get i (j - 1) + 1))
          ((runDPFill w band P T M).get (i - 1) (j - 1) + mismatchFlag P T i j)) := by
  refine ⟨(runDPFill_spec w band P T M hbw).2.2.2.2.2.2 i j hint, ?_⟩
  intro hw
  simp only [interior] at hint
  have h := runDPFill_rec_nat w band P T M hbw hw (i - 1).toNat (j - 1).toNat
    (by omega) (by omega) (by omega)
  have ei : (((i - 1).toNat : Nat) : Int) = i - 1 := by omega
  have ej : (((j - 1).toNat : Nat) : Int) = j - 1 := by omega
  rw [ei, ej] at h
  simpa using h

theorem runDPFill_recurrence_witness :
    (runDPFill 16 1 "ABCD".toList "AXBCD".toList (initMatrix 1 0)).get 2 3 =
      min (min ((runDPFill 16 1 "ABCD".toList "AXBCD".toList (initMatrix 1 0)).get (2 - 1) 3 + 1)
               ((runDPFill 16 1 "ABCD".toList "AXBCD".toList (initMatrix 1 0)).get 2 (3 - 1) + 1))
        ((runDPFill 16 1 "ABCD".toList "AXBCD".toList (initMatrix 1 0)).get (2 - 1) (3 - 1)
          + mismatchFlag "ABCD".toList "AXBCD".toList 2 3) :=
  (runDPFill_recurrence 16 1 "ABCD".toList "AXBCD".toList (initMatrix 1 0) rfl 2 3
    (by unfold interior; decide)).2 (by decide)

/-! ## Theorems on `backtrackDP` -/

/-- C10 (backtrack tie-break priority).  A backtracking step at `(row, col)`
with `col ≥ 1` compares `up = cell(row-1,col)+1`, `left = cell(row,col-1)+1`
and `diag = cell(row-1,col-1)+mismatchFlag`.  It is an INSERTION step (only
`row` decremented) iff `up < left` and `up < diag`; a DELETION step (only
`col` decremented) iff not `up < left` and `left < diag`; otherwise a diagonal
step (both decremented) recorded as MATCH when `rowPat[row-1] == colPat[col-1]`
and as MISMATCH otherwise.  The three sums are the exact ones whenever they do
not exceed the range of the distance type. -/
theorem backtrackStep_priority (w : Nat) (P T : List Char) (M : BandedMatrix) (s : BtState)
    (hcol : 1 ≤ s.col) :
    (backtrackStep w P T M s =
        Except.ok { row := s.row - 1, col := s.col,
                    errorTrace := s.errorTrace.set (s.row - 1).toNat ERROR_T.INSERTION }
      ↔ (upCost w M s < leftCost w M s ∧ upCost w M s < diagCost w P T M s)) ∧
    (backtrackStep w P T M s =
        Except.ok { row := s.row, col := s.col - 1,
                    errorTrace := s.errorTrace.set (s.row - 1).toNat ERROR_T.DELETION }
      ↔ (¬ upCost w M s < leftCost w M s ∧ leftCost w M s < diagCost w P T M s)) ∧
    (backtrackStep w P T M s =
        Except.ok { row := s.row - 1, col := s.col - 1,
                    errorTrace := s.errorTrace.set (s.row - 1).toNat
                      (if charAt P (s.row - 1) = charAt T (s.col - 1) then ERROR_T.MATCH
                       else ERROR_T.MISMATCH) }
      ↔ (¬ (upCost w M s < leftCost w M s ∧ upCost w M s < diagCost w P T M s) ∧
         ¬ (¬ upCost w M s < leftCost w M s ∧ leftCost w M s < diagCost w P T M s))) ∧
    (M.get (s.row - 1) s.col + 1 < 2 ^ w → upCost w M s = M.get (s.row - 1) s.col + 1) ∧
    (M.get s.row (s.col - 1) + 1 < 2 ^ w → leftCost w M s = M.get s.row (s.col - 1) + 1) ∧
    (M.get (s.row - 1) (s.col - 1) + 1 < 2 ^ w →
      diagCost w P T M s = M.get (s.row - 1) (s.col - 1)
        + (if charAt P (s.row - 1) = charAt T (s.col - 1) then 0 else 1)) := by
  have hc : ¬ (s.col - 1 < 0) := by omega
  have hentry : diagEntry (mismatchFlag P T s.row s.col)
      = (if charAt P (s.row - 1) = charAt T (s.col - 1) then ERROR_T.MATCH
         else ERROR_T.MISMATCH) := by
    unfold diagEntry mismatchFlag
    by_cases h : charAt P (s.row - 1) = charAt T (s.col - 1) <;> simp [h]
  have hne1 : s.col ≠ s.col - 1 := by omega
  have hne2 : s.row ≠ s.row - 1 := by omega
  refine ⟨?_, ?_, ?_, ?_, ?_, ?_⟩
  · unfold backtrackStep
    rw [if_neg hc]
    by_cases h1 : upCost w M s < leftCost w M s <;>
      by_cases h2 : upCost w M s < diagCost w P T M s <;>
      by_cases h3 : leftCost w M s < diagCost w P T M s <;>
      simp [h1, h2, h3, hne1, hne2, hne1.symm, hne2.symm]
  · unfold backtrackStep
    rw [if_neg hc]
    by_cases h1 : upCost w M s < leftCost w M s <;>
      by_cases h2 : upCost w M s < diagCost w P T M s <;>
      by_cases h3 : leftCost w M s < diagCost w P T M s <;>
      simp [h1, h2, h3, hne1, hne2, hne1.symm, hne2.symm]
  · unfold backtrackStep
    rw [if_neg hc, hentry]
    by_cases h1 : upCost w M s < leftCost w M s <;>
      by_cases h2 : upCost w M s < diagCost w P T M s <;>
      by_cases h3 : leftCost w M s < diagCost w P T M s <;>
      simp [h1, h2, h3, hne1, hne2, hne1.symm, hne2.symm]
  · intro h; exact addT_eq w _ 1 h
  · intro h; exact addT_eq w _ 1 h
  · intro h
    unfold diagCost
    have := mismatchFlag_le_one P T s.row s.col
    rw [addT_eq w _ _ (by omega)]
    rfl

/-- The iteration budget of `backtrackLoop` is never what stops it: a budget
of `row + col` is enough, since every iteration that does not fail has
`col ≥ 1` and lowers `row + col`. -/
theorem backtrackLoop_fuel (w : Nat) (P T : List Char) (M : BandedMatrix) (fuel : Nat) :
    ∀ s : BtState, s.row.toNat + s.col.toNat ≤ fuel →
      backtrackLoop w P T M fuel s ≠ Except.error BtError.outOfFuel := by
  induction fuel with
  | zero =>
    intro s hs
    unfold backtrackLoop
    have : ¬ s.row > 0 := by omega
    rw [if_neg this]
    exact fun h => nomatch h
  | succ fuel ih =>
    intro s hs
    unfold backtrackLoop
    by_cases hr : s.row > 0
    · rw [if_pos hr]
      by_cases hc : s.col - 1 < 0
      · have : backtrackStep w P T M s = Except.error BtError.textIndexBeforeStart := by
          unfold backtrackStep; rw [if_pos hc]
        rw [this]
        exact fun h => nomatch h
      · unfold backtrackStep
        rw [if_neg hc]
        split_ifs <;> exact ih _ (by simp only; omega)
    · rw [if_neg hr]
      exact fun h => nomatch h

/-- The embedding of `backtrackDP` returns a trace or stops at the read before
the start of the text; it never runs out of iterations. -/
theorem backtrackDP_fuel (w band : Nat) (P T : List Char) (M : BandedMatrix) :
    backtrackDP w band P T M ≠ Except.error BtError.outOfFuel := by
  unfold backtrackDP
  apply backtrackLoop_fuel
  simp [backtrackInit]

theorem backtrackStep_length (w : Nat) (P T : List Char) (M : BandedMatrix)
    (s s2 : BtState) (h : backtrackStep w P T M s = Except.ok s2) :
    s2.errorTrace.length = s.errorTrace.length := by
  unfold backtrackStep at h
  split_ifs at h <;> simp at h <;> (subst h; simp)

/-- Every trace returned by the backtracking loop has the length of the trace
it started from. -/
theorem backtrackLoop_length (w : Nat) (P T : List Char) (M : BandedMatrix) (fuel : Nat) :
    ∀ (s : BtState) (tr : List ERROR_T), backtrackLoop w P T M fuel s = Except.ok tr →
      tr.length = s.errorTrace.length := by
  induction fuel with
  | zero =>
    intro s tr h
    unfold backtrackLoop at h
    split_ifs at h
    simp at h
    subst h; rfl
  | succ fuel ih =>
    intro s tr h
    unfold backtrackLoop at h
    split_ifs at h
    · cases hs : backtrackStep w P T M s with
      | error e => rw [hs] at h; exact nomatch h
      | ok s2 =>
        rw [hs] at h
        rw [ih s2 tr h, backtrackStep_length w P T M s s2 hs]
    · simp at h; subst h; rfl

/-- Every trace returned by `backtrackDP` has one entry per pattern
character. -/
theorem backtrackDP_length (w band : Nat) (P T : List Char) (M : BandedMatrix)
    (tr : List ERROR_T) (h : backtrackDP w band P T M = Except.ok tr) :
    tr.length = P.length := by
  unfold backtrackDP at h
  rw [backtrackLoop_length w P T M _ _ tr h]
  simp [backtrackInit]

set_option maxRecDepth 100000 in
theorem backtrackStep_priority_witness :
    backtrackStep 16 "ABCD".toList "AXBCD".toList
        (runDPFill 16 1 "ABCD".toList "AXBCD".toList (initMatrix 1 0))
        { row := 1, col := 2, errorTrace := List.replicate 4 ERROR_T.MATCH } =
      Except.ok { row := 1, col := 2 - 1,
                  errorTrace := (List.replicate 4 ERROR_T.MATCH).set (1 - 1 : Int).toNat
                    ERROR_T.DELETION } :=
  (backtrackStep_priority 16 "ABCD".toList "AXBCD".toList
      (runDPFill 16 1 "ABCD".toList "AXBCD".toList (initMatrix 1 0))
      { row := 1, col := 2, errorTrace := List.replicate 4 ERROR_T.MATCH }
      (by decide)).2.1.mpr ⟨by decide, by decide⟩

set_option maxRecDepth 100000 in
/-- C2 (alignment trace validity) fails on the code: for the pattern `ABCD`
and the text `AXBCD` with `band = 1` the edit distance is `1 ≤ band`,
`getEditDist` returns `1`, and the trace returned by `backtrackDP` is four
times `MATCH`: the `DELETION` written for the skipped text character `X` is
overwritten by the next step at the same row, so the trace has no entry other
than `MATCH`. -/
theorem backtrackDP_drops_deletion :
    lev "ABCD".toList "AXBCD".toList = 1 ∧
    getEditDist 16 1 "ABCD".toList.length
      (runDPFill 16 1 "ABCD".toList "AXBCD".toList (initMatrix 1 0)) = 1 ∧
    backtrackDP 16 1 "ABCD".toList "AXBCD".toList
      (runDPFill 16 1 "ABCD".toList "AXBCD".toList (initMatrix 1 0))
      = Except.ok [ERROR_T.MATCH, ERROR_T.MATCH, ERROR_T.MATCH, ERROR_T.MATCH] ∧
    nonMatchCount [ERROR_T.MATCH, ERROR_T.MATCH, ERROR_T.MATCH, ERROR_T.MATCH] = 0 := by
  refine ⟨by decide, by decide, by rfl, by decide⟩

set_option maxRecDepth 100000 in
/-- For the pattern `ABCD` and the text `BCDEF` with `band = 1` the walk of
`backtrackDP` starts at `(4,3)` and after three diagonal steps is at `(1,0)`;
the next iteration, still at `row = 1 > 0`, reads `colPat[col - 1]` with
`col = 0`, where the embedding stops. -/
theorem backtrackDP_reads_before_text :
    getEditDist 16 1 "ABCD".toList.length
      (runDPFill 16 1 "ABCD".toList "BCDEF".toList (initMatrix 1 0)) = 1 ∧
    backtrackInit 16 1 "ABCD".toList
      (runDPFill 16 1 "ABCD".toList "BCDEF".toList (initMatrix 1 0))
      = { row := 4, col := 3, errorTrace := List.replicate 4 ERROR_T.MATCH } ∧
    ((backtrackStep 16 "ABCD".toList "BCDEF".toList
        (runDPFill 16 1 "ABCD".toList "BCDEF".toList (initMatrix 1 0))
        { row := 4, col := 3, errorTrace := List.replicate 4 ERROR_T.MATCH }).bind
      (fun s1 => (backtrackStep 16 "ABCD".toList "BCDEF".toList
        (runDPFill 16 1 "ABCD".toList "BCDEF".toList (initMatrix 1 0)) s1).bind
      (fun s2 => backtrackStep 16 "ABCD".toList "BCDEF".toList
        (runDPFill 16 1 "ABCD".toList "BCDEF".toList (initMatrix 1 0)) s2)))
      = Except.ok { row := 1, col := 0, errorTrace := List.replicate 4 ERROR_T.MATCH } ∧
    backtrackDP 16 1 "ABCD".toList "BCDEF".toList
      (runDPFill 16 1 "ABCD".toList "BCDEF".toList (initMatrix 1 0))
      = Except.error BtError.textIndexBeforeStart := by
  refine ⟨by decide, by decide, by rfl, by rfl⟩

/-! ## Lemmas on two-word bit-vectors -/

theorem ofBits_lt (f : Nat → Bool) (n : Nat) : ofBits f n < 2 ^ n := by
  induction n with
  | zero => simp [ofBits]
  | succ n ih =>
    unfold ofBits
    have : 2 ^ (n + 1) = 2 * 2 ^ n := by ring
    split <;> omega

theorem testBit_ofBits (f : Nat → Bool) (n j : Nat) :
    (ofBits f n).testBit j = (decide (j < n) && f j) := by
  induction n with
  | zero => simp [ofBits]
  | succ n ih =>
    unfold ofBits
    have hlt := ofBits_lt f n
    by_cases hf : f n = true
    · rw [if_pos hf, Nat.add_comm]
      rcases Nat.lt_trichotomy j n with h | h | h
      · rw [Nat.testBit_two_pow_add_gt h, ih]
        simp [h, Nat.lt_succ_of_lt h]
      · subst h
        rw [Nat.testBit_two_pow_add_eq, ih]
        simp [hf]
      · have h2 : 2 ^ n + ofBits f n < 2 ^ j := by
          have : 2 ^ (n + 1) ≤ 2 ^ j := Nat.pow_le_pow_right (by decide) h
          have : 2 ^ (n + 1) = 2 * 2 ^ n := by ring
          omega
        rw [Nat.testBit_lt_two_pow h2]
        have : ¬ j < n + 1 := by omega
        simp [this]
    · rw [if_neg hf, Nat.add_zero, ih]
      rcases Nat.lt_trichotomy j n with h | h | h
      · simp [h, Nat.lt_succ_of_lt h]
      · subst h; simp [hf]
      · have h1 : ¬ j < n := by omega
        have h2 : ¬ j < n + 1 := by omega
        simp [h1, h2]

theorem bit_mkWords (f : Nat → Bool) (j : Nat) (hj : j < 128) : (mkWords f).bit j = f j := by
  unfold BitWords.bit mkWords
  by_cases h : j < 64
  · simp only [if_pos h]
    rw [testBit_ofBits]; simp [h]
  · simp only [if_neg h]
    rw [testBit_ofBits]
    have h2 : j - 64 < 64 := by omega
    have h3 : j - 64 + 64 = j := by omega
    simp [h2, h3]

theorem wf_mkWords (f : Nat → Bool) : (mkWords f).wf :=
  ⟨ofBits_lt _ 64, ofBits_lt _ 64⟩

theorem usedLength_le (p : List Char) : usedLength p ≤ 127 := by
  unfold usedLength; omega

/-! ## Lemmas on `lowBits` and the match masks -/

theorem maskBit_diag (p : List Char) (code t : Nat) (ht : t + 1 ≤ usedLength p) :
    (masks p code).bit (t + 1) = covers code (charAt p (t : Int)) := by
  have := usedLength_le p
  unfold masks
  rw [bit_mkWords _ _ (by omega)]
  unfold maskBit
  have h1 : ¬ usedLength p < t + 1 := by omega
  have e : (((t + 1 : Nat) : Int) - 1) = (t : Int) := by omega
  rw [e]
  simp [h1]

/-! ## Theorems on `reset` -/

/-- The constants asserted by the test `reset` for `ShiftAnd<0>` and
`ShiftAnd<2>`. -/
theorem reset_unit_test :
    reset 0 [{ B_0 := 15, B_1 := 1 }] = [{ B_0 := 1, B_1 := 0 }] ∧
    reset 2 [{ B_0 := 15, B_1 := 1 }, { B_0 := 1, B_1 := 1 }, { B_0 := 0, B_1 := 1 }]
      = [{ B_0 := 1, B_1 := 0 }, { B_0 := 3, B_1 := 0 }, { B_0 := 7, B_1 := 0 }] := by
  refine ⟨by decide, by decide⟩

/-! ## The start cell of `backtrackDP` -/

/-- A scan that keeps the first strictly smaller value and its position: the
first component is the running minimum; either no value so far is below the
start value and the position is unchanged, or the position is that of the
first value equal to the running minimum. -/
theorem argmin_scan (cell : Nat → Nat) (pos : Nat → Int) (init : Nat) (K : Nat) :
    ((List.range K).foldl
        (fun (acc : Nat × Int) (k : Nat) => if cell k < acc.1 then (cell k, pos k) else acc)
        (init, 0)).1
      = (List.range K).foldl (fun minimum (k : Nat) => min minimum (cell k)) init ∧
    (((List.range K).foldl
        (fun (acc : Nat × Int) (k : Nat) => if cell k < acc.1 then (cell k, pos k) else acc)
        (init, 0) = (init, 0) ∧ ∀ k, k < K → init ≤ cell k) ∨
     ∃ k, k < K ∧
      (List.range K).foldl
        (fun (acc : Nat × Int) (k : Nat) => if cell k < acc.1 then (cell k, pos k) else acc)
        (init, 0) = (cell k, pos k) ∧
      (∀ k2, k2 < k → cell k < cell k2) ∧ (∀ k2, k2 < K → cell k ≤ cell k2)) := by
  induction K with
  | zero => simp
  | succ K ih =>
    rw [List.range_succ, List.foldl_append, List.foldl_append]
    simp only [List.foldl_cons, List.foldl_nil]
    generalize (List.range K).foldl
        (fun (acc : Nat × Int) (k : Nat) => if cell k < acc.1 then (cell k, pos k) else acc)
        (init, 0) = acc at ih ⊢
    generalize (List.range K).foldl (fun minimum (k : Nat) => min minimum (cell k)) init = mn
      at ih ⊢
    obtain ⟨h1, h2⟩ := ih
    by_cases hlt : cell K < acc.1
    · rw [if_pos hlt]
      refine ⟨by simp only []; omega, Or.inr ⟨K, by omega, rfl, ?_, ?_⟩⟩
      · intro k2 hk2
        rcases h2 with ⟨e, hall⟩ | ⟨k, hk, e, _, hmin⟩
        · rw [e] at hlt; simp only [] at hlt
          have := hall k2 hk2; omega
        · rw [e] at hlt; simp only [] at hlt
          have := hmin k2 hk2; omega
      · intro k2 hk2
        rcases Nat.lt_succ_iff_lt_or_eq.mp hk2 with h | h
        · rcases h2 with ⟨e, hall⟩ | ⟨k, hk, e, _, hmin⟩
          · rw [e] at hlt; simp only [] at hlt
            have := hall k2 h; omega
          · rw [e] at hlt; simp only [] at hlt
            have := hmin k2 h; omega
        · subst h; exact le_rfl
    · rw [if_neg hlt]
      refine ⟨by omega, ?_⟩
      rcases h2 with ⟨e, hall⟩ | ⟨k, hk, e, hfirst, hmin⟩
      · left
        refine ⟨e, ?_⟩
        intro k hk
        rcases Nat.lt_succ_iff_lt_or_eq.mp hk with h | h
        · exact hall k h
        · subst h; rw [e] at hlt; simp only [] at hlt; omega
      · right
        refine ⟨k, by omega, e, hfirst, ?_⟩
        intro k2 hk2
        rcases Nat.lt_succ_iff_lt_or_eq.mp hk2 with h | h
        · exact hmin k2 h
        · subst h; rw [e] at hlt; simp only [] at hlt; omega

/-- C20 (backtrack start cell).  On a matrix in which some cell of the
final-row window is below `max()`, the start column `c` chosen by
`backtrackDP` lies in `[m - band, m + band]`, satisfies
`cell(m, c) = getEditDist()`, and is the smallest column of the window that
attains this minimum. -/
theorem startColumn_leftmost_min (w band : Nat) (P : List Char) (M : BandedMatrix)
    (h : ∃ o : Int, -(band : Int) ≤ o ∧ o ≤ band ∧
      M.get P.length ((P.length : Int) + o) < maxT w) :
    (P.length : Int) - band ≤ (backtrackInit w band P M).col ∧
    (backtrackInit w band P M).col ≤ (P.length : Int) + band ∧
    M.get P.length (backtrackInit w band P M).col = getEditDist w band P.length M ∧
    (∀ c : Int, (P.length : Int) - band ≤ c → c ≤ (P.length : Int) + band →
      M.get P.length c = getEditDist w band P.length M → (backtrackInit w band P M).col ≤ c) := by
  obtain ⟨h1, h2⟩ := argmin_scan
    (fun k => M.get P.length ((P.length : Int) + ((k : Int) - band)))
    (fun k => (P.length : Int) + ((k : Int) - band)) (maxT w) (2 * band + 1)
  unfold backtrackInit startColumn getEditDist
  simp only []
  rw [← h1]
  obtain ⟨o, ho1, ho2, ho3⟩ := h
  rcases h2 with ⟨he, hall⟩ | ⟨k, hk, e, hfirst, hmin⟩
  · exfalso
    have := hall (o + band).toNat (by omega)
    have e : (((o + band).toNat : Nat) : Int) - band = o := by omega
    simp only [e] at this; omega
  · rw [e]
    refine ⟨by simp only []; omega, by simp only []; omega, rfl, ?_⟩
    intro c hc1 hc2 hc
    simp only [] at hc ⊢
    by_contra hlt
    have hk2 := hfirst (c - P.length + band).toNat (by omega)
    have e2 : (P.length : Int) + ((((c - P.length + band).toNat : Nat) : Int) - band) = c := by
      omega
    simp only [e2, hc] at hk2
    omega

set_option maxRecDepth 100000 in
theorem startColumn_leftmost_min_witness :
    (backtrackInit 16 1 "ABCD".toList
        (runDPFill 16 1 "ABCD".toList "ABCDE".toList (initMatrix 1 0))).col
      ≤ ("ABCD".toList.length : Int) + 1 :=
  (startColumn_leftmost_min 16 1 "ABCD".toList
    (runDPFill 16 1 "ABCD".toList "ABCDE".toList (initMatrix 1 0))
    ⟨0, by decide, by decide, by decide⟩).2.1

/-! ## The entries of the returned trace -/

theorem diagEntry_ne_deletion (flag : Nat) : diagEntry flag ≠ ERROR_T.DELETION := by
  unfold diagEntry; split <;> exact fun h => nomatch h

theorem getElem?_set_eq_some (l : List ERROR_T) (j i : Nat) (a b : ERROR_T)
    (h : (l.set j a)[i]? = some b) : (i = j ∧ a = b) ∨ (i ≠ j ∧ l[i]? = some b) := by
  rw [List.getElem?_set] at h
  by_cases hji : j = i
  · rw [if_pos hji] at h
    by_cases hl : j < l.length
    · rw [if_pos hl] at h
      left
      exact ⟨hji.symm, Option.some.inj h⟩
    · rw [if_neg hl] at h
      exact nomatch h
  · rw [if_neg hji] at h
    exact Or.inr ⟨fun e => hji e.symm, h⟩

/-- Invariant of the backtracking loop: a `DELETION` entry can only sit at
the index `row - 1` of the current row. -/
theorem backtrackStep_deletion_inv (w : Nat) (P T : List Char) (M : BandedMatrix)
    (s s2 : BtState) (hrow : s.row > 0)
    (hinv : ∀ i : Nat, s.errorTrace[i]? = some ERROR_T.DELETION → (i : Int) = s.row - 1)
    (h : backtrackStep w P T M s = Except.ok s2) :
    ∀ i : Nat, s2.errorTrace[i]? = some ERROR_T.DELETION → (i : Int) = s2.row - 1 := by
  have hidx : (((s.row - 1).toNat : Nat) : Int) = s.row - 1 := by omega
  unfold backtrackStep at h
  split_ifs at h <;> simp at h <;> subst h <;> intro i hi <;> simp only [] at hi ⊢ <;>
    rcases getElem?_set_eq_some _ _ _ _ _ hi with ⟨h1, h2⟩ | ⟨h0, h1⟩
  · exact nomatch h2
  · have := hinv i h1; omega
  · exact absurd h2 (diagEntry_ne_deletion _)
  · have := hinv i h1; omega
  · omega
  · exact hinv i h1
  · exact absurd h2 (diagEntry_ne_deletion _)
  · have := hinv i h1; omega

theorem backtrackLoop_no_deletion (w : Nat) (P T : List Char) (M : BandedMatrix) (fuel : Nat) :
    ∀ (s : BtState) (tr : List ERROR_T),
      (∀ i : Nat, s.errorTrace[i]? = some ERROR_T.DELETION → (i : Int) = s.row - 1) →
      backtrackLoop w P T M fuel s = Except.ok tr →
      ∀ i : Nat, tr[i]? ≠ some ERROR_T.DELETION := by
  induction fuel with
  | zero =>
    intro s tr hinv h i hi
    unfold backtrackLoop at h
    split_ifs at h with hr
    simp at h
    subst h
    have := hinv i hi; omega
  | succ fuel ih =>
    intro s tr hinv h
    unfold backtrackLoop at h
    split_ifs at h with hr
    · cases hs : backtrackStep w P T M s with
      | error e => rw [hs] at h; exact nomatch h
      | ok s2 =>
        rw [hs] at h
        exact ih s2 tr (backtrackStep_deletion_inv w P T M s s2 hr hinv hs) h
    · simp at h; subst h
      intro i hi
      have := hinv i hi; omega

/-- C18 (the returned trace never contains `DELETION`).  On every input on
which `backtrackDP` returns a trace, every entry of the trace is `MATCH`,
`MISMATCH` or `INSERTION`: a `DELETION` step writes `errorTrace[row-1]` and
leaves `row` unchanged, and the step that later decrements `row` overwrites
that entry. -/
theorem backtrackDP_no_deletion (w band : Nat) (P T : List Char) (M : BandedMatrix)
    (tr : List ERROR_T) (h : backtrackDP w band P T M = Except.ok tr) :
    ∀ e, e ∈ tr → e = ERROR_T.MATCH ∨ e = ERROR_T.MISMATCH ∨ e = ERROR_T.INSERTION := by
  unfold backtrackDP at h
  have hno := backtrackLoop_no_deletion w P T M _ (backtrackInit w band P M) tr (by
    intro i hi
    exfalso
    simp only [backtrackInit] at hi
    have hmem : ERROR_T.DELETION ∈ List.replicate P.length ERROR_T.MATCH :=
      List.mem_iff_getElem?.mpr ⟨i, hi⟩
    have := List.eq_of_mem_replicate hmem
    exact nomatch this) h
  intro e he
  obtain ⟨i, hi⟩ := List.mem_iff_getElem?.mp he
  have := hno i
  cases e with
  | MATCH => exact Or.inl rfl
  | MISMATCH => exact Or.inr (Or.inl rfl)
  | INSERTION => exact Or.inr (Or.inr rfl)
  | DELETION => exact absurd hi this

set_option maxRecDepth 100000 in
theorem backtrackDP_no_deletion_witness :
    ERROR_T.MATCH = ERROR_T.MATCH ∨ ERROR_T.MATCH = ERROR_T.MISMATCH ∨
      ERROR_T.MATCH = ERROR_T.INSERTION :=
  backtrackDP_no_deletion 16 1 "ABCD".toList "AXBCD".toList
    (runDPFill 16 1 "ABCD".toList "AXBCD".toList (initMatrix 1 0))
    [ERROR_T.MATCH, ERROR_T.MATCH, ERROR_T.MATCH, ERROR_T.MATCH] (by rfl)
    ERROR_T.MATCH (by decide)

/-! ## Ties between the up and the left neighbour -/

set_option maxRecDepth 100000 in
/-- The walk of `backtrackDP` for the pattern `ababba` and the text `aababaa`
with `band = 1` reaches the cell `(4,4)` after two diagonal steps; there
`cell(3,4) = cell(4,3) = 1`, the diagonal is not chosen (`cell(3,3) = 2` and
the characters differ), and the step taken is the left move: `col` becomes
`3`, `row` stays `4`, and the entry written is `DELETION`, not `INSERTION`. -/
theorem backtrackStep_tie_goes_left :
    ((backtrackStep 16 "ababba".toList "aababaa".toList
        (runDPFill 16 1 "ababba".toList "aababaa".toList (initMatrix 1 0))
        (backtrackInit 16 1 "ababba".toList
          (runDPFill 16 1 "ababba".toList "aababaa".toList (initMatrix 1 0)))).bind
      (fun s1 => backtrackStep 16 "ababba".toList "aababaa".toList
        (runDPFill 16 1 "ababba".toList "aababaa".toList (initMatrix 1 0)) s1))
      = Except.ok { row := 4, col := 4, errorTrace := List.replicate 6 ERROR_T.MATCH } ∧
    (runDPFill 16 1 "ababba".toList "aababaa".toList (initMatrix 1 0)).get (4 - 1) 4
      = (runDPFill 16 1 "ababba".toList "aababaa".toList (initMatrix 1 0)).get 4 (4 - 1) ∧
    backtrackStep 16 "ababba".toList "aababaa".toList
        (runDPFill 16 1 "ababba".toList "aababaa".toList (initMatrix 1 0))
        { row := 4, col := 4, errorTrace := List.replicate 6 ERROR_T.MATCH }
      = Except.ok { row := 4, col := 3,
                    errorTrace := [ERROR_T.MATCH, ERROR_T.MATCH, ERROR_T.MATCH,
                      ERROR_T.DELETION, ERROR_T.MATCH, ERROR_T.MATCH] } := by
  refine ⟨by rfl, by decide, by rfl⟩

/-- C11 (tie between up and left), amended.  In every backtracking step with
`col ≥ 1` in which `cell(row-1, col) = cell(row, col-1)`, the precedence is
diagonal first, then left: the step is the left move (`DELETION`, `row`
unchanged) when `cell(row, col-1) + 1` is below the diagonal cost, and the
diagonal move otherwise; the up move (`INSERTION`) is never taken on a tie. -/
theorem backtrackStep_tie_diag_then_left (w : Nat) (rowPat colPat : List Char)
    (M : BandedMatrix) (s : BtState) (hcol : 1 ≤ s.col)
    (htie : M.get (s.row - 1) s.col = M.get s.row (s.col - 1)) :
    backtrackStep w rowPat colPat M s =
      if addT w (M.get s.row (s.col - 1)) 1
          < addT w (M.get (s.row - 1) (s.col - 1)) (mismatchFlag rowPat colPat s.row s.col) then
        Except.ok { row := s.row, col := s.col - 1,
                    errorTrace := s.errorTrace.set (s.row - 1).toNat ERROR_T.DELETION }
      else
        Except.ok { row := s.row - 1, col := s.col - 1,
                    errorTrace := s.errorTrace.set (s.row - 1).toNat
                      (diagEntry (mismatchFlag rowPat colPat s.row s.col)) } := by
  unfold backtrackStep upCost leftCost diagCost
  rw [htie, if_neg (by omega : ¬ s.col - 1 < 0), if_neg (lt_irrefl _)]

set_option maxRecDepth 100000 in
theorem backtrackStep_tie_diag_then_left_witness :
    backtrackStep 16 "babba".toList "ababaa".toList
        (runDPFill 16 1 "babba".toList "ababaa".toList (initMatrix 1 0))
        { row := 3, col := 3, errorTrace := List.replicate 5 ERROR_T.MATCH } =
      if addT 16 ((runDPFill 16 1 "babba".toList "ababaa".toList (initMatrix 1 0)).get
            (3 : Int) ((3 : Int) - 1)) 1
          < addT 16 ((runDPFill 16 1 "babba".toList "ababaa".toList (initMatrix 1 0)).get
            ((3 : Int) - 1) ((3 : Int) - 1))
              (mismatchFlag "babba".toList "ababaa".toList 3 3) then
        Except.ok { row := 3, col := 3 - 1,
                    errorTrace := (List.replicate 5 ERROR_T.MATCH).set
                      ((3 : Int) - 1).toNat ERROR_T.DELETION }
      else
        Except.ok { row := 3 - 1, col := 3 - 1,
                    errorTrace := (List.replicate 5 ERROR_T.MATCH).set ((3 : Int) - 1).toNat
                      (diagEntry (mismatchFlag "babba".toList "ababaa".toList 3 3)) } :=
  backtrackStep_tie_diag_then_left 16 "babba".toList "ababaa".toList
    (runDPFill 16 1 "babba".toList "ababaa".toList (initMatrix 1 0))
    { row := 3, col := 3, errorTrace := List.replicate 5 ERROR_T.MATCH } (by decide) (by decide)

/-! ## The walk of `backtrackDP` and column 0 -/

set_option maxRecDepth 100000 in
/-- C19 (backtrack index safety) fails on the code: for the pattern `AB` and
the text `BXX` with `band = 1` (so `m = 2 ≥ band` and the text has
`m + band` characters) the walk of `backtrackDP` starts at `(2,1)`, one
diagonal step leads to `(1,0)`, and the next iteration, with `row = 1 > 0`
and `col = 0`, reads `colPat[col - 1]` and `dpMatrix(row, col - 1)` at the
column `-1`. -/
theorem backtrackDP_column_zero_with_row_positive :
    "AB".toList.length ≥ 1 ∧ "BXX".toList.length ≥ "AB".toList.length + 1 ∧
    backtrackInit 16 1 "AB".toList
      (runDPFill 16 1 "AB".toList "BXX".toList (initMatrix 1 0))
      = { row := 2, col := 1, errorTrace := [ERROR_T.MATCH, ERROR_T.MATCH] } ∧
    backtrackStep 16 "AB".toList "BXX".toList
      (runDPFill 16 1 "AB".toList "BXX".toList (initMatrix 1 0))
      { row := 2, col := 1, errorTrace := [ERROR_T.MATCH, ERROR_T.MATCH] }
      = Except.ok { row := 1, col := 0, errorTrace := [ERROR_T.MATCH, ERROR_T.MATCH] } ∧
    backtrackStep 16 "AB".toList "BXX".toList
      (runDPFill 16 1 "AB".toList "BXX".toList (initMatrix 1 0))
      { row := 1, col := 0, errorTrace := [ERROR_T.MATCH, ERROR_T.MATCH] }
      = Except.error BtError.textIndexBeforeStart ∧
    backtrackDP 16 1 "AB".toList "BXX".toList
      (runDPFill 16 1 "AB".toList "BXX".toList (initMatrix 1 0))
      = Except.error BtError.textIndexBeforeStart := by
  refine ⟨by decide, by decide, by decide, by rfl, by rfl, by rfl⟩

/-! ## The record of accesses of `runDPFill` -/

/-- A recorded loop whose body appends accesses that do not depend on the
state: the matrix is that of the plain loop, the record grows by the
accesses of the iterations in order. -/
theorem foldl_traced (f : Traced → Nat → Traced) (g : BandedMatrix → Nat → BandedMatrix)
    (acc : Nat → List Access)
    (hm : ∀ S k, (f S k).matrix = g S.matrix k)
    (hl : ∀ S k, (f S k).log = S.log ++ acc k) (n : Nat) (S : Traced) :
    ((List.range n).foldl f S).matrix = (List.range n).foldl g S.matrix ∧
    ((List.range n).foldl f S).log = S.log ++ (List.range n).flatMap acc := by
  induction n with
  | zero => simp
  | succ n ih =>
    rw [List.range_succ, List.foldl_append, List.foldl_append, List.flatMap_append]
    simp only [List.foldl_cons, List.foldl_nil, List.flatMap_cons, List.flatMap_nil,
      List.append_nil]
    rw [hm, hl, ih.1, ih.2, List.append_assoc]
    exact ⟨rfl, rfl⟩

theorem fillCellLog_matrix (w band : Nat) (P T : List Char) (row : Int) (S : Traced) (k : Nat) :
    (fillCellLog w band P T row S k).matrix = fillCell w band P T row S.matrix k := by
  unfold fillCellLog fillCell
  simp only []
  split <;> rfl

theorem fillCellLog_log (w band : Nat) (P T : List Char) (row : Int) (S : Traced) (k : Nat) :
    (fillCellLog w band P T row S k).log = S.log ++ cellAccesses band row k := by
  unfold fillCellLog cellAccesses
  simp only []
  split
  · simp
  · simp [Traced.set, Traced.readLevRec]

theorem fillRowLog_spec (w band : Nat) (P T : List Char) (S : Traced) (r : Nat) :
    (fillRowLog w band P T S r).matrix = fillRow w band P T S.matrix r ∧
    (fillRowLog w band P T S r).log =
      S.log ++ (List.range (2 * band + 1)).flatMap (cellAccesses band ((r : Int) + 1)) :=
  foldl_traced _ _ _ (fillCellLog_matrix w band P T _) (fillCellLog_log w band P T _) _ S

theorem fillMatrixLog_spec (w band : Nat) (P T : List Char) (S : Traced) :
    (fillMatrixLog w band P T S).matrix = fillMatrix w band P T S.matrix ∧
    (fillMatrixLog w band P T S).log = S.log ++ fillAccesses band P.length :=
  foldl_traced _ _ _ (fun S r => (fillRowLog_spec w band P T S r).1)
    (fun S r => (fillRowLog_spec w band P T S r).2) _ S

theorem initBordersLog_spec (w band m : Nat) (M : BandedMatrix) :
    (initBordersLog w band m { matrix := M, log := [] }).matrix = initBorders w band m M ∧
    (initBordersLog w band m { matrix := M, log := [] }).log = borderAccesses band m := by
  unfold initBordersLog initBorders initRightBandLog initLeftBandLog initFirstColLog
    initFirstRowLog initRightBand initLeftBand initFirstCol initFirstRow borderAccesses
  have h4 := foldl_traced
    (fun S (r : Nat) => S.set r ((r : Int) + (band + 1)) (sentinel w band r))
    (fun M (r : Nat) => M.set r ((r : Int) + (band + 1)) (sentinel w band r))
    (fun (r : Nat) => [Access.write r ((r : Int) + (band + 1))])
    (fun _ _ => rfl) (fun _ _ => rfl) m
  have h3 := foldl_traced
    (fun S (c : Nat) => S.set ((c : Int) + (band + 1)) c (sentinel w band c))
    (fun M (c : Nat) => M.set ((c : Int) + (band + 1)) c (sentinel w band c))
    (fun (c : Nat) => [Access.write ((c : Int) + (band + 1)) c])
    (fun _ _ => rfl) (fun _ _ => rfl) (m - band)
  have h2 := foldl_traced
    (fun S (r : Nat) => S.set ((r : Int) + 1) 0 (castT w ((r : Int) + 1)))
    (fun M (r : Nat) => M.set ((r : Int) + 1) 0 (castT w ((r : Int) + 1)))
    (fun (r : Nat) => [Access.write ((r : Int) + 1) 0])
    (fun _ _ => rfl) (fun _ _ => rfl) band
  have h1 := foldl_traced
    (fun S (c : Nat) => S.set 0 ((c : Int) + 1) (castT w ((c : Int) + 1)))
    (fun M (c : Nat) => M.set 0 ((c : Int) + 1) (castT w ((c : Int) + 1)))
    (fun (c : Nat) => [Access.write 0 ((c : Int) + 1)])
    (fun _ _ => rfl) (fun _ _ => rfl) band
  rw [(h4 _).1, (h4 _).2, (h3 _).1, (h3 _).2, (h2 _).1, (h2 _).2, (h1 _).1, (h1 _).2]
  exact ⟨rfl, rfl⟩

/-- The recorded `runDPFill` computes the matrix of `runDPFill`, and its
record is the border accesses followed by the accesses of the fill loop. -/
theorem runDPFillLog_spec (w band : Nat) (P T : List Char) (M : BandedMatrix) :
    (runDPFillLog w band P T M).matrix = runDPFill w band P T M ∧
    (runDPFillLog w band P T M).log = borderAccesses band P.length ++ fillAccesses band P.length := by
  unfold runDPFillLog runDPFill
  obtain ⟨h1, h2⟩ := initBordersLog_spec w band P.length M
  obtain ⟨f1, f2⟩ := fillMatrixLog_spec w band P T
    (initBordersLog w band P.length { matrix := M, log := [] })
  rw [f1, f2, h1, h2]
  exact ⟨rfl, rfl⟩

theorem mem_borderAccesses (band m : Nat) (a : Access) :
    a ∈ borderAccesses band m ↔
      a = Access.write 0 0 ∨
      (∃ c : Nat, c < band ∧ a = Access.write 0 ((c : Int) + 1)) ∨
      (∃ r : Nat, r < band ∧ a = Access.write ((r : Int) + 1) 0) ∨
      (∃ c : Nat, c < m - band ∧ a = Access.write ((c : Int) + (band + 1)) c) ∨
      (∃ r : Nat, r < m ∧ a = Access.write r ((r : Int) + (band + 1))) := by
  unfold borderAccesses
  simp only [List.mem_append, List.mem_flatMap, List.mem_range, List.mem_singleton, or_assoc]

theorem mem_cellAccesses (band : Nat) (row : Int) (k : Nat) (a : Access) :
    a ∈ cellAccesses band row k ↔
      0 < row + ((k : Int) - band) ∧
      (a = Access.read (row - 1) (row + ((k : Int) - band)) ∨
       a = Access.read row (row + ((k : Int) - band) - 1) ∨
       a = Access.read (row - 1) (row + ((k : Int) - band) - 1) ∨
       a = Access.write row (row + ((k : Int) - band))) := by
  unfold cellAccesses
  split
  · simp only [List.not_mem_nil, false_iff]; intro h; omega
  · simp only [List.mem_cons, List.mem_singleton, List.not_mem_nil, or_false]
    constructor
    · intro h; exact ⟨by omega, h⟩
    · intro h; exact h.2

/-- The cells assigned by the first `n` rows of the fill loop are the
interior corridor cells of these rows. -/
theorem write_mem_fillAccesses (band n : Nat) (r c : Int) :
    Access.write r c ∈ fillAccesses band n ↔ interior band n r c := by
  unfold fillAccesses interior
  simp only [List.mem_flatMap, List.mem_range, mem_cellAccesses]
  constructor
  · rintro ⟨i, hi, k, hk, hpos, h⟩
    simp only [Access.write.injEq, false_or, reduceCtorEq] at h
    omega
  · intro h
    refine ⟨(r - 1).toNat, by omega, (c - r + band).toNat, by omega, by omega, ?_⟩
    right; right; right
    have e1 : (((r - 1).toNat : Nat) : Int) + 1 = r := by omega
    have e2 : (((c - r + band).toNat : Nat) : Int) - band = c - r := by omega
    rw [e1, e2]
    congr 1
    omega

theorem write_mem_borderAccesses (band m : Nat) (r c : Int) :
    Access.write r c ∈ borderAccesses band m ↔
      (r = 0 ∧ 0 ≤ c ∧ c ≤ band) ∨ (c = 0 ∧ 0 ≤ r ∧ r ≤ band) ∨
      (r - c = band + 1 ∧ 0 ≤ c ∧ c < ((m - band : Nat) : Int)) ∨
      (c - r = band + 1 ∧ 0 ≤ r ∧ r < m) := by
  rw [mem_borderAccesses]
  simp only [Access.write.injEq]
  constructor
  · rintro (h | ⟨k, hk, h⟩ | ⟨k, hk, h⟩ | ⟨k, hk, h⟩ | ⟨k, hk, h⟩) <;> omega
  · rintro (h | h | h | h)
    · rcases Int.lt_or_le 0 c with hc | hc
      · right; left; exact ⟨(c - 1).toNat, by omega, by omega⟩
      · left; omega
    · rcases Int.lt_or_le 0 r with hc | hc
      · right; right; left; exact ⟨(r - 1).toNat, by omega, by omega⟩
      · left; omega
    · right; right; right; left; exact ⟨c.toNat, by omega, by omega⟩
    · right; right; right; right; exact ⟨r.toNat, by omega, by omega⟩

theorem read_not_mem_borderAccesses (band m : Nat) (r c : Int) :
    Access.read r c ∉ borderAccesses band m := by
  rw [mem_borderAccesses]
  simp

theorem write_mem_rowAccesses (band : Nat) (row : Int) (k : Nat) (r c : Int) :
    Access.write r c ∈ (List.range k).flatMap (cellAccesses band row) ↔
      r = row ∧ 1 ≤ c ∧ row - band ≤ c ∧ c < row + k - band := by
  simp only [List.mem_flatMap, List.mem_range, mem_cellAccesses]
  constructor
  · rintro ⟨i, hi, hpos, h⟩
    simp only [Access.write.injEq, false_or, reduceCtorEq] at h
    omega
  · intro h
    refine ⟨(c - row + band).toNat, by omega, by omega, ?_⟩
    right; right; right
    have e2 : (((c - row + band).toNat : Nat) : Int) - band = c - row := by omega
    rw [e2, h.1]
    congr 1
    omega

theorem readsAssigned_append (l1 l2 : List Access) (h1 : ReadsAssigned l1)
    (h2 : ∀ r c, Access.read r c ∈ l2 → Access.write r c ∈ l1) :
    ReadsAssigned (l1 ++ l2) := by
  intro pre post r c h
  rcases List.append_eq_append_iff.mp h with ⟨a, ha, hb⟩ | ⟨a, ha, hb⟩
  · rw [ha]
    exact List.mem_append_left _ (h2 r c (by rw [hb]; simp))
  · cases a with
    | nil =>
      simp only [List.append_nil, List.nil_append] at ha hb
      rw [← ha]
      exact h2 r c (by rw [← hb]; simp)
    | cons x a =>
      simp only [List.cons_append, List.cons.injEq] at hb
      rw [← hb.1] at ha
      exact h1 pre a r c ha

/-- The neighbours read by `LevRec` at the `k`-th cell of row `n + 1` were
assigned by the border initialisation, by an earlier row, or earlier in the
same row. -/
theorem neighbours_assigned (band m n k : Nat) (hn : n < m) (hk : k < 2 * band + 1)
    (r c : Int) (h : Access.read r c ∈ cellAccesses band ((n : Int) + 1) k) :
    Access.write r c ∈ (borderAccesses band m ++ fillAccesses band n) ++
      (List.range k).flatMap (cellAccesses band ((n : Int) + 1)) := by
  rw [mem_cellAccesses] at h
  simp only [Access.read.injEq, reduceCtorEq, or_false] at h
  simp only [List.mem_append, write_mem_borderAccesses, write_mem_fillAccesses,
    write_mem_rowAccesses, interior]
  omega

theorem readsAssigned_row (band m n : Nat) (hn : n < m)
    (h : ReadsAssigned (borderAccesses band m ++ fillAccesses band n)) (k : Nat)
    (hk : k ≤ 2 * band + 1) :
    ReadsAssigned ((borderAccesses band m ++ fillAccesses band n) ++
      (List.range k).flatMap (cellAccesses band ((n : Int) + 1))) := by
  induction k with
  | zero => simpa using h
  | succ k ih =>
    rw [List.range_succ, List.flatMap_append, ← List.append_assoc]
    simp only [List.flatMap_cons, List.flatMap_nil, List.append_nil]
    exact readsAssigned_append _ _ (ih (by omega))
      (fun r c hr => neighbours_assigned band m n k hn (by omega) r c hr)

theorem fillAccesses_succ (band n : Nat) :
    fillAccesses band (n + 1) = fillAccesses band n ++
      (List.range (2 * band + 1)).flatMap (cellAccesses band ((n : Int) + 1)) := by
  unfold fillAccesses
  rw [List.range_succ, List.flatMap_append]
  simp

theorem readsAssigned_fill (band m n : Nat) (hn : n ≤ m) :
    ReadsAssigned (borderAccesses band m ++ fillAccesses band n) := by
  induction n with
  | zero =>
    intro pre post r c h
    exfalso
    apply read_not_mem_borderAccesses band m r c
    have e : fillAccesses band 0 = [] := rfl
    rw [e, List.append_nil] at h
    rw [h]; simp
  | succ n ih =>
    rw [fillAccesses_succ, ← List.append_assoc]
    exact readsAssigned_row band m n (by omega) (ih (by omega)) _ le_rfl

/-! ## Claims on the accesses of the fill phase -/

set_option maxRecDepth 100000 in
/-- C13 (corridor invariant of the fill phase) fails on the code.  For a
pattern shorter than the band the column-0 loop of `runDPFill` assigns below
the last row of the matrix: with the pattern `A` (`m = 1`, a matrix of the two
rows `0` and `1`) and `band = 2` the cell `(2, 0)` is assigned, and `2 > m`. -/
theorem runDPFill_writes_below_last_row :
    Access.write 2 0 ∈ (runDPFillLog 16 2 "A".toList "AAA".toList (initMatrix 2 0)).log ∧
    ¬ ((2 : Int) ≤ ("A".toList.length : Int)) := by
  rw [(runDPFillLog_spec 16 2 "A".toList "AAA".toList (initMatrix 2 0)).2]
  decide

/-- The cells assigned by `runDPFill`.  The recorded `runDPFill` computes the
matrix of `runDPFill`; every cell `(row, col)` it assigns has `row ≥ 0`,
`0 ≤ col ≤ m + band` and lies inside the corridor `|col - row| ≤ band + 1`,
for every pattern length `m`; the row is inside the matrix (`row ≤ m`) when
`m ≥ band`. -/
theorem runDPFill_writes_in_corridor (w band : Nat) (P T : List Char) (M : BandedMatrix) :
    (runDPFillLog w band P T M).matrix = runDPFill w band P T M ∧
    ∀ r c : Int, Access.write r c ∈ (runDPFillLog w band P T M).log →
      0 ≤ r ∧ 0 ≤ c ∧ c ≤ (P.length : Int) + band ∧
      c - r ≤ (band : Int) + 1 ∧ r - c ≤ (band : Int) + 1 ∧
      (band ≤ P.length → r ≤ P.length) := by
  obtain ⟨h1, h2⟩ := runDPFillLog_spec w band P T M
  refine ⟨h1, ?_⟩
  intro r c h
  rw [h2] at h
  simp only [List.mem_append, write_mem_borderAccesses, write_mem_fillAccesses, interior] at h
  omega

/-- C17 (initialised before read).  In the record of `runDPFill` every read
of a cell by `LevRec` (the up, left and diagonal neighbour of each filled
cell) comes after an assignment to the same cell in the same call: the
assignment of the row-0 or column-0 initialisation, of a sentinel
diagonal, or of an earlier recurrence step; no read is of a cell that still
holds the fill value of the constructor. -/
theorem runDPFill_reads_assigned (w band : Nat) (P T : List Char) (M : BandedMatrix)
    (_hm : band ≤ P.length) :
    (runDPFillLog w band P T M).matrix = runDPFill w band P T M ∧
    ∀ (pre post : List Access) (r c : Int),
      (runDPFillLog w band P T M).log = pre ++ Access.read r c :: post →
      Access.write r c ∈ pre := by
  obtain ⟨h1, h2⟩ := runDPFillLog_spec w band P T M
  refine ⟨h1, ?_⟩
  rw [h2]
  exact readsAssigned_fill band P.length P.length le_rfl

set_option maxRecDepth 100000 in
theorem runDPFill_reads_assigned_witness :
    Access.write 0 1 ∈ [Access.write 0 0, Access.write 1 0, Access.write 0 1] :=
  (runDPFill_reads_assigned 16 0 "A".toList "A".toList (initMatrix 0 0) (by decide)).2
    [Access.write 0 0, Access.write 1 0, Access.write 0 1]
    [Access.read 1 0, Access.read 0 0, Access.write 1 1] 0 1 (by
      rw [(runDPFillLog_spec 16 0 "A".toList "A".toList (initMatrix 0 0)).2]
      decide)

/-- C14 (border initialisation).  For a pattern of length `m ≥ band`, after
`runDPFill` the cell `(0, j)` holds `j` for `0 ≤ j ≤ band` and the cell
`(i, 0)` holds `i` for `0 ≤ i ≤ band` (the index converted to the distance
type, which is the index itself when `band` is a value of that type), every
cell `(row, row + band + 1)` with `row < m` and every cell
`(col + band + 1, col)` with `col < m - band` holds the sentinel, and the
fill loop, run on the matrix left by the border initialisation, assigns only
interior cells (`row ≥ 1`, `col ≥ 1`, `|col - row| ≤ band`), hence none of
these border cells. -/
theorem runDPFill_borders_kept (w band : Nat) (P T : List Char) (M : BandedMatrix)
    (hbw : M.bw = band + 1) (_hm : band ≤ P.length) :
    (∀ j : Nat, j ≤ band →
      (runDPFill w band P T M).get 0 j = castT w j ∧
      (band < 2 ^ w → (runDPFill w band P T M).get 0 j = j)) ∧
    (∀ i : Nat, i ≤ band →
      (runDPFill w band P T M).get i 0 = castT w i ∧
      (band < 2 ^ w → (runDPFill w band P T M).get i 0 = i)) ∧
    (∀ r : Nat, r < P.length →
      (runDPFill w band P T M).get r ((r : Int) + (band + 1)) = sentinel w band r) ∧
    (∀ c : Nat, c < P.length - band →
      (runDPFill w band P T M).get ((c : Int) + (band + 1)) c = sentinel w band c) ∧
    (fillMatrixLog w band P T
        { matrix := initBorders w band P.length M, log := [] }).matrix
      = runDPFill w band P T M ∧
    (∀ r c : Int,
      Access.write r c ∈ (fillMatrixLog w band P T
        { matrix := initBorders w band P.length M, log := [] }).log →
      1 ≤ r ∧ 1 ≤ c ∧ c - r ≤ (band : Int) ∧ r - c ≤ (band : Int)) := by
  obtain ⟨_, s0, s1, s2, s3, s4, _⟩ := runDPFill_spec w band P T M hbw
  obtain ⟨f1, f2⟩ := fillMatrixLog_spec w band P T
    { matrix := initBorders w band P.length M, log := [] }
  have hrow : ∀ j : Nat, j ≤ band → (runDPFill w band P T M).get 0 j = castT w j := by
    intro j hj
    rcases Nat.eq_zero_or_pos j with h | h
    · subst h; rw [Nat.cast_zero, s0]; rfl
    · exact s1 j h hj
  have hcol : ∀ i : Nat, i ≤ band → (runDPFill w band P T M).get i 0 = castT w i := by
    intro i hi
    rcases Nat.eq_zero_or_pos i with h | h
    · subst h; rw [Nat.cast_zero, s0]; rfl
    · exact s2 i h hi
  refine ⟨?_, ?_, s4, s3, f1, ?_⟩
  · intro j hj
    refine ⟨hrow j hj, fun hb => ?_⟩
    rw [hrow j hj]; exact castT_natCast w j (by omega)
  · intro i hi
    refine ⟨hcol i hi, fun hb => ?_⟩
    rw [hcol i hi]; exact castT_natCast w i (by omega)
  · intro r c h
    rw [f2] at h
    simp only [List.nil_append, write_mem_fillAccesses, interior] at h
    omega

set_option maxRecDepth 100000 in
theorem runDPFill_borders_kept_witness :
    (runDPFill 16 1 "ABCD".toList "AXBCD".toList (initMatrix 1 0)).get 0 ((1 : Nat) : Int) = 1 :=
  ((runDPFill_borders_kept 16 1 "ABCD".toList "AXBCD".toList (initMatrix 1 0)
    rfl (by decide)).1 1 (by decide)).2 (by decide)

/-! ## The sentinels and the real costs -/

/-- C12 (sentinel arithmetic) fails on the code.  With the 8-bit type (the
smallest type that holds the string sizes `128`, `129` and the band),
`band = 1`, the pattern `A^128` and the text `B^129`, the sentinel written at
`(127, 129)` is `255 - 127 - 1 - 1 = 126`; `126 + 1` is not above the real
cost `128` of the corridor cell `(128, 128)`, and the cell `(128, 129)`,
whose up neighbour is that sentinel, receives a value below the real cost
of aligning `A^128` with `B^129`: the sentinel wins the minimum. -/
theorem sentinel_wins_narrow_type :
    (runDPFill 8 1 (List.replicate 128 'A') (List.replicate 129 'B') (initMatrix 1 0)).get
        ((127 : Nat) : Int) (((127 : Nat) : Int) + ((1 : Nat) + 1)) = sentinel 8 1 ((127 : Nat) : Int) ∧
    sentinel 8 1 ((127 : Nat) : Int) = 126 ∧
    sentinel 8 1 ((127 : Nat) : Int) + 1
      ≤ lev (List.replicate 128 'A') ((List.replicate 129 'B').take 128) ∧
    (runDPFill 8 1 (List.replicate 128 'A') (List.replicate 129 'B') (initMatrix 1 0)).get
        128 129 < lev (List.replicate 128 'A') ((List.replicate 129 'B').take 129) := by
  have hlen : (List.replicate 128 'A').length = 128 := List.length_replicate ..
  have hcP : (List.replicate 128 'A').count 'A' = 128 := List.count_replicate_self ..
  have hcT : (List.replicate 129 'B').count 'A' = 0 := by
    rw [List.count_replicate]; decide
  have hs : sentinel 8 1 ((127 : Nat) : Int) = 126 := by decide
  have hlev : ∀ j, 128 ≤ lev (List.replicate 128 'A') ((List.replicate 129 'B').take j) := by
    intro j
    have h1 := lev_ge_count 'A' _ (List.replicate 128 'A') ((List.replicate 129 'B').take j) rfl
    have h2 : ((List.replicate 129 'B').take j).count 'A' ≤ (List.replicate 129 'B').count 'A' :=
      (List.take_sublist j _).count_le 'A'
    omega
  obtain ⟨_, _, _, _, _, s4, s5⟩ := runDPFill_spec 8 1 (List.replicate 128 'A')
    (List.replicate 129 'B') (initMatrix 1 0) rfl
  have h4 := s4 127 (by rw [hlen]; decide)
  refine ⟨h4, hs, ?_, ?_⟩
  · rw [hs]; have := hlev 128; omega
  · have hint : interior 1 (List.replicate 128 'A').length (128 : Int) (129 : Int) := by
      simp only [interior]; rw [hlen]; decide
    rw [s5 _ _ hint]
    have hc := castT_natCast_le 8 (LevRec 8 (List.replicate 128 'A') (List.replicate 129 'B')
      (runDPFill 8 1 (List.replicate 128 'A') (List.replicate 129 'B') (initMatrix 1 0)) 128 129)
    have hup := addT_le 8 ((runDPFill 8 1 (List.replicate 128 'A') (List.replicate 129 'B')
      (initMatrix 1 0)).get (128 - 1) 129) 1
    have e : ((127 : Nat) : Int) + ((1 : Nat) + 1) = 129 := by decide
    have e2 : ((127 : Nat) : Int) = 128 - 1 := by decide
    rw [e, hs, e2] at h4
    have hrec : LevRec 8 (List.replicate 128 'A') (List.replicate 129 'B')
        (runDPFill 8 1 (List.replicate 128 'A') (List.replicate 129 'B') (initMatrix 1 0)) 128 129
        ≤ addT 8 ((runDPFill 8 1 (List.replicate 128 'A') (List.replicate 129 'B')
          (initMatrix 1 0)).get (128 - 1) 129) 1 := by
      unfold LevRec
      exact le_trans (min_le_left _ _) (min_le_left _ _)
    have := hlev 129
    omega

/-- Sentinel arithmetic when the distance type has headroom.  For a distance
type of `w` bits with `2·(m + band) < 2^w`, every sentinel `s`
written by `runDPFill` on the two outer diagonals satisfies `s + 1 ≤ max(T)`
(adding `1` does not wrap), `s + 1` is strictly greater than the value of
every corridor cell, and a sentinel neighbour does not win the minimum: a
cell next to a sentinel diagonal holds the minimum of its other two
neighbours' costs. -/
theorem sentinel_above_costs (w band : Nat) (P T : List Char) (M : BandedMatrix)
    (hbw : M.bw = band + 1) (hw : 2 * (P.length + band) < 2 ^ w) :
    (∀ r : Nat, r < P.length →
      (runDPFill w band P T M).get r ((r : Int) + (band + 1)) = sentinel w band r) ∧
    (∀ c : Nat, c < P.length - band →
      (runDPFill w band P T M).get ((c : Int) + (band + 1)) c = sentinel w band c) ∧
    (∀ index : Nat, index < P.length →
      sentinel w band index + 1 ≤ maxT w ∧
      addT w (sentinel w band index) 1 = sentinel w band index + 1 ∧
      (∀ i j : Nat, i ≤ P.length → j ≤ i + band → i ≤ j + band →
        (runDPFill w band P T M).get i j < sentinel w band index + 1)) ∧
    (∀ r : Nat, r < P.length →
      (runDPFill w band P T M).get ((r : Int) + 1) (((r + band : Nat) : Int) + 1) =
        min ((runDPFill w band P T M).get ((r : Int) + 1) ((r + band : Nat) : Int) + 1)
          ((runDPFill w band P T M).get r ((r + band : Nat) : Int)
            + mismatchFlag P T ((r : Int) + 1) (((r + band : Nat) : Int) + 1))) ∧
    (∀ c : Nat, c < P.length - band →
      (runDPFill w band P T M).get (((c + band : Nat) : Int) + 1) ((c : Int) + 1) =
        min ((runDPFill w band P T M).get ((c + band : Nat) : Int) ((c : Int) + 1) + 1)
          ((runDPFill w band P T M).get ((c + band : Nat) : Int) c
            + mismatchFlag P T (((c + band : Nat) : Int) + 1) ((c : Int) + 1))) := by
  obtain ⟨_, _, _, _, s3, s4, _⟩ := runDPFill_spec w band P T M hbw
  have hsent : ∀ index : Nat, index < P.length →
      sentinel w band index = 2 ^ w - 2 - index - band := fun index hi =>
    sentinel_eq w band index (by omega)
  refine ⟨s4, s3, ?_, ?_, ?_⟩
  · intro index hi
    rw [hsent index hi]
    refine ⟨by unfold maxT; omega, addT_eq _ _ _ (by omega), ?_⟩
    intro i j h1 h2 h3
    have := runDPFill_le_max w band P T M hbw i j h1 h2 h3
    omega
  · intro r hr
    have hrec := runDPFill_rec_nat w band P T M hbw (by omega) r (r + band) hr
      (by omega) (by omega)
    have hmax := runDPFill_le_max w band P T M hbw (r + 1) (r + band + 1) (by omega)
      (by omega) (by omega)
    have e : (((r + band : Nat) : Int) + 1) = (r : Int) + (band + 1) := by push_cast; ring
    have e1 : ((r + 1 : Nat) : Int) = (r : Int) + 1 := by push_cast; rfl
    have e2 : ((r + band + 1 : Nat) : Int) = ((r + band : Nat) : Int) + 1 := by push_cast; rfl
    rw [e1, e2] at hmax
    have hs := s4 r hr
    rw [← e] at hs
    rw [hs, hsent r hr] at hrec
    omega
  · intro c hc
    have hrec := runDPFill_rec_nat w band P T M hbw (by omega) (c + band) c (by omega)
      (by omega) (by omega)
    have hmax := runDPFill_le_max w band P T M hbw (c + band + 1) (c + 1) (by omega)
      (by omega) (by omega)
    have e : (((c + band : Nat) : Int) + 1) = (c : Int) + (band + 1) := by push_cast; ring
    have e1 : ((c + 1 : Nat) : Int) = (c : Int) + 1 := by push_cast; rfl
    have e2 : ((c + band + 1 : Nat) : Int) = ((c + band : Nat) : Int) + 1 := by push_cast; rfl
    rw [e1, e2] at hmax
    have hs := s3 c hc
    rw [← e] at hs
    rw [hs, hsent c (by omega)] at hrec
    omega

set_option maxRecDepth 100000 in
theorem sentinel_above_costs_witness :
    sentinel 16 1 ((3 : Nat) : Int) + 1 ≤ maxT 16 :=
  ((sentinel_above_costs 16 1 "ABCD".toList "AXBCD".toList (initMatrix 1 0) rfl
    (by decide)).2.2.1 3 (by decide)).1

/-! ## The accepted mask and the layout of the match masks -/

theorem ofBits_single (t s n : Nat) :
    ofBits (fun j => decide (j + s = t)) n = if s ≤ t ∧ t < n + s then 2 ^ (t - s) else 0 := by
  induction n with
  | zero =>
    unfold ofBits
    rw [if_neg (by omega)]
  | succ n ih =>
    unfold ofBits
    rw [ih]
    by_cases h : n + s = t
    · have e : t - s = n := by omega
      have hA : ¬ (s ≤ t ∧ t < n + s) := by omega
      have hB : s ≤ t ∧ t < n + 1 + s := by omega
      rw [if_neg hA, if_pos hB, decide_eq_true h, e]
      simp
    · by_cases h2 : s ≤ t ∧ t < n + s
      · have hB : s ≤ t ∧ t < n + 1 + s := by omega
        rw [if_pos h2, if_pos hB, decide_eq_false h]; simp
      · have hB : ¬ (s ≤ t ∧ t < n + 1 + s) := by omega
        rw [if_neg h2, if_neg hB, decide_eq_false h]; simp

theorem ofBits_congr (f g : Nat → Bool) (n : Nat) (h : ∀ j, j < n → f j = g j) :
    ofBits f n = ofBits g n := by
  induction n with
  | zero => rfl
  | succ n ih =>
    unfold ofBits
    rw [ih (fun j hj => h j (by omega)), h n (by omega)]

theorem accepted_words (p : List Char) :
    (accepted p).B_0 = (if usedLength p < 64 then 2 ^ usedLength p else 0) ∧
    (accepted p).B_1 = (if 64 ≤ usedLength p then 2 ^ (usedLength p - 64) else 0) := by
  have hle := usedLength_le p
  have h0 := ofBits_single (usedLength p) 0 64
  have h1 := ofBits_single (usedLength p) 64 64
  simp only [Nat.add_zero, Nat.zero_le, true_and, Nat.sub_zero] at h0
  unfold accepted mkWords
  simp only []
  rw [h0, h1]
  refine ⟨by simp, ?_⟩
  by_cases h : 64 ≤ usedLength p
  · rw [if_pos ⟨h, by omega⟩, if_pos h]
  · rw [if_neg (by omega), if_neg h]

/-- C15 (accepted mask).  For every pattern of length `m`, the accepted mask,
read as the 128-bit vector with `B_0` the low and `B_1` the high word, has
exactly one bit set, the bit `min m 127`: its value is `2 ^ (min m 127)`.
For `m < 64` the bit is bit `m` of `B_0`, for `64 ≤ m ≤ 127` it is bit
`m - 64` of `B_1`, and for `m > 127` it is bit 127 (bit 63 of `B_1`). -/
theorem accepted_single_bit (p : List Char) :
    (accepted p).wf ∧
    (∀ j, j < 128 → ((accepted p).bit j = true ↔ j = min p.length 127)) ∧
    (accepted p).B_0 + 2 ^ 64 * (accepted p).B_1 = 2 ^ (min p.length 127) ∧
    (p.length < 64 → (accepted p).B_0 = 2 ^ p.length ∧ (accepted p).B_1 = 0) ∧
    (64 ≤ p.length → p.length ≤ 127 →
      (accepted p).B_0 = 0 ∧ (accepted p).B_1 = 2 ^ (p.length - 64)) ∧
    (127 < p.length → (accepted p).B_0 = 0 ∧ (accepted p).B_1 = 2 ^ 63) := by
  obtain ⟨h0, h1⟩ := accepted_words p
  have hu : usedLength p = min p.length 127 := rfl
  rw [hu] at h0 h1
  refine ⟨wf_mkWords _, ?_, ?_, ?_, ?_, ?_⟩
  · intro j hj
    unfold accepted
    rw [bit_mkWords _ j hj, hu]
    simp
  · rw [h0, h1]
    by_cases h : min p.length 127 < 64
    · rw [if_pos h, if_neg (by omega)]; simp
    · rw [if_neg h, if_pos (by omega), Nat.zero_add, ← pow_add]
      congr 1; omega
  · intro h
    rw [h0, h1, if_pos (by omega), if_neg (by omega)]
    exact ⟨by congr 1; omega, rfl⟩
  · intro h hle
    rw [h0, h1, if_neg (by omega), if_pos (by omega)]
    exact ⟨rfl, by congr 1; omega⟩
  · intro h
    rw [h0, h1, if_neg (by omega), if_pos (by omega)]
    exact ⟨rfl, by congr 1; omega⟩

theorem accepted_single_bit_witness :
    (accepted "ACACACCCC".toList).B_0 = 2 ^ "ACACACCCC".toList.length ∧
    (accepted "ACACACCCC".toList).B_1 = 0 :=
  (accepted_single_bit "ACACACCCC".toList).2.2.2.1 (by decide)

theorem mkWords_congr (f g : Nat → Bool) (h : ∀ j, j < 128 → f j = g j) :
    mkWords f = mkWords g := by
  unfold mkWords
  rw [ofBits_congr f g 64 (fun j hj => h j (by omega)),
    ofBits_congr (fun j => f (j + 64)) (fun j => g (j + 64)) 64 (fun j hj => h (j + 64) (by omega))]

theorem charAt_take (p : List Char) (n i : Nat) (h : i < n) :
    charAt (p.take n) (i : Int) = charAt p (i : Int) := by
  unfold charAt
  rw [if_neg (by omega), if_neg (by omega)]
  simp only [Int.toNat_ofNat, List.getD_eq_getElem?_getD, List.getElem?_take, if_pos h]

theorem covers_iff (s q : Char) (hs : isACGT s = true) (hq : isACGT q = true) :
    covers (lmap s) q = true ↔ (q = s ∨ (s = 'C' ∧ q = 'T')) := by
  simp only [isACGT, Bool.or_eq_true, decide_eq_true_eq] at hs hq
  rcases hs with ((rfl | rfl) | rfl) | rfl <;> rcases hq with ((rfl | rfl) | rfl) | rfl <;> decide

theorem charAt_mem (p : List Char) (i : Nat) (h : i < p.length) : charAt p (i : Int) ∈ p := by
  unfold charAt
  rw [if_neg (by omega)]
  simp only [Int.toNat_ofNat, List.getD_eq_getElem?_getD, List.getElem?_eq_getElem h,
    Option.getD_some]
  exact List.getElem_mem h

/-- C16 (match-mask layout).  For a pattern of length `m ≤ 127` over
`{A, C, G, T}` and a symbol `s` of that alphabet, the match mask of the code
of `s`, read as a 128-bit vector (`B_0` low, `B_1` high word, both 64-bit
values), has bit 0 set, has bit `i + 1` set for `i < m` iff `pattern[i]` is
`s` (or `s` is `C` and `pattern[i]` is `T`), and has every bit above `m`
set; the bit of pattern position `i` is bit `i + 1` of `B_0` for `i < 63` and
bit `i - 63` of `B_1` for `i ≥ 63`.  For every pattern the mask is that of
its first 127 symbols. -/
theorem masks_layout (p : List Char) (s : Char) (hp : ∀ q, q ∈ p → isACGT q = true)
    (hs : isACGT s = true) :
    (p.length ≤ 127 →
      (masks p (lmap s)).wf ∧
      (masks p (lmap s)).bit 0 = true ∧
      (∀ i, i < p.length →
        ((masks p (lmap s)).bit (i + 1) = true ↔
          (charAt p (i : Int) = s ∨ (s = 'C' ∧ charAt p (i : Int) = 'T')))) ∧
      (∀ j, p.length < j → j < 128 → (masks p (lmap s)).bit j = true) ∧
      (∀ i, i < p.length → i < 63 →
        (masks p (lmap s)).B_0.testBit (i + 1) = (masks p (lmap s)).bit (i + 1)) ∧
      (∀ i, i < p.length → 63 ≤ i →
        (masks p (lmap s)).B_1.testBit (i - 63) = (masks p (lmap s)).bit (i + 1))) ∧
    masks p (lmap s) = masks (p.take 127) (lmap s) := by
  constructor
  · intro hm
    have hu : usedLength p = p.length := by unfold usedLength; omega
    refine ⟨wf_mkWords _, ?_, ?_, ?_, ?_, ?_⟩
    · unfold masks; rw [bit_mkWords _ 0 (by omega)]; simp [maskBit]
    · intro i hi
      rw [maskBit_diag p (lmap s) i (by omega)]
      exact covers_iff s _ hs (hp _ (charAt_mem p i hi))
    · intro j h1 h2
      unfold masks; rw [bit_mkWords _ j h2]
      unfold maskBit
      rw [hu]; simp [h1]
    · intro i _ h63
      unfold BitWords.bit
      rw [if_pos (by omega)]
    · intro i _ h63
      unfold BitWords.bit
      rw [if_neg (by omega)]
      congr 1
  · unfold masks
    apply mkWords_congr
    intro j hj
    unfold maskBit
    have hu : usedLength (p.take 127) = usedLength p := by
      unfold usedLength; rw [List.length_take]; omega
    rw [hu]
    rcases Nat.eq_zero_or_pos j with h0 | hpos
    · subst h0; simp
    · have e : ((j : Int) - 1) = ((j - 1 : Nat) : Int) := by omega
      rw [e, charAt_take p 127 (j - 1) (by omega)]

theorem masks_layout_witness :
    (masks "ACACACCCC".toList (lmap 'C')).bit (1 + 1) = true ↔
      (charAt "ACACACCCC".toList ((1 : Nat) : Int) = 'C' ∨
        ('C' = 'C' ∧ charAt "ACACACCCC".toList ((1 : Nat) : Int) = 'T')) :=
  ((masks_layout "ACACACCCC".toList 'C' (by decide) (by decide)).1 (by decide)).2.2.1 1
    (by decide)

/-! ## The mask constants of the unit tests -/

set_option maxRecDepth 1000000 in
/-- The constants asserted by the test `simpleBitmasks` for the pattern
`ACACACCCC`. -/
theorem masks_simpleBitmasks :
    masks "ACACACCCC".toList (lmap 'A') = { B_0 := 0xfffffffffffffc2b, B_1 := 0xffffffffffffffff } ∧
    masks "ACACACCCC".toList (lmap 'C') = { B_0 := 0xffffffffffffffd5, B_1 := 0xffffffffffffffff } ∧
    masks "ACACACCCC".toList (lmap 'G') = { B_0 := 0xfffffffffffffc01, B_1 := 0xffffffffffffffff } ∧
    masks "ACACACCCC".toList (lmap 'T') = { B_0 := 0xfffffffffffffc01, B_1 := 0xffffffffffffffff } ∧
    accepted "ACACACCCC".toList = { B_0 := 0x200, B_1 := 0 } := by
  refine ⟨by decide, by decide, by decide, by decide, by decide⟩

set_option maxRecDepth 1000000 in
/-- The constants asserted by the test `simpleBitmasksOverflow` for the
pattern `A^64 CG`. -/
theorem masks_simpleBitmasksOverflow :
    masks (List.replicate 64 'A' ++ "CG".toList) (lmap 'A')
      = { B_0 := 0xffffffffffffffff, B_1 := 0xfffffffffffffff9 } ∧
    masks (List.replicate 64 'A' ++ "CG".toList) (lmap 'C')
      = { B_0 := 1, B_1 := 0xfffffffffffffffa } ∧
    masks (List.replicate 64 'A' ++ "CG".toList) (lmap 'G')
      = { B_0 := 1, B_1 := 0xfffffffffffffffc } ∧
    masks (List.replicate 64 'A' ++ "CG".toList) (lmap 'T')
      = { B_0 := 1, B_1 := 0xfffffffffffffff8 } ∧
    accepted (List.replicate 64 'A' ++ "CG".toList) = { B_0 := 0, B_1 := 4 } := by
  refine ⟨by decide, by decide, by decide, by decide, by decide⟩

set_option maxRecDepth 1000000 in
/-- The constants asserted by the test `bitmaskLongPattern` for the pattern
`G^64 C^64 AAA` of 131 symbols. -/
theorem masks_bitmaskLongPattern :
    masks (List.replicate 64 'G' ++ List.replicate 64 'C' ++ "AAA".toList) (lmap 'A')
      = { B_0 := 1, B_1 := 0 } ∧
    masks (List.replicate 64 'G' ++ List.replicate 64 'C' ++ "AAA".toList) (lmap 'C')
      = { B_0 := 1, B_1 := 0xfffffffffffffffe } ∧
    masks (List.replicate 64 'G' ++ List.replicate 64 'C' ++ "AAA".toList) (lmap 'G')
      = { B_0 := 0xffffffffffffffff, B_1 := 1 } ∧
    masks (List.replicate 64 'G' ++ List.replicate 64 'C' ++ "AAA".toList) (lmap 'T')
      = { B_0 := 1, B_1 := 0 } ∧
    accepted (List.replicate 64 'G' ++ List.replicate 64 'C' ++ "AAA".toList)
      = { B_0 := 0, B_1 := 0x8000000000000000 } := by
  refine ⟨by decide, by decide, by decide, by decide, by decide⟩

set_option maxRecDepth 1000000 in
/-- The constants asserted by the test `bitmaskBisulfite` for the pattern
`ATTATTTCCC`. -/
theorem masks_bitmaskBisulfite :
    (masks "ATTATTTCCC".toList (lmap 'A')).B_0 = 0xfffffffffffff813 ∧
    (masks "ATTATTTCCC".toList (lmap 'C')).B_0 = 0xffffffffffffffed ∧
    (masks "ATTATTTCCC".toList (lmap 'G')).B_0 = 0xfffffffffffff801 ∧
    (masks "ATTATTTCCC".toList (lmap 'T')).B_0 = 0xfffffffffffff8ed := by
  refine ⟨by decide, by decide, by decide, by decide⟩

/-! ## Every trace entry is assigned by a backtracking step -/

/-- The recorded step is the step of `backtrackDP`. -/
theorem backtrackStepLog_state (w : Nat) (P T : List Char) (M : BandedMatrix) (S : BtTraced) :
    backtrackStep w P T M S.state =
      match backtrackStepLog w P T M S with
      | Except.error e => Except.error e
      | Except.ok S2 => Except.ok S2.state := by
  unfold backtrackStep backtrackStepLog backtrackBranch upCost leftCost diagCost
  split_ifs <;> rfl

/-- The recorded loop is the loop of `backtrackDP`. -/
theorem backtrackLoopLog_state (w : Nat) (P T : List Char) (M : BandedMatrix) (fuel : Nat) :
    ∀ S : BtTraced, backtrackLoop w P T M fuel S.state =
      match backtrackLoopLog w P T M fuel S with
      | Except.error e => Except.error e
      | Except.ok S2 => Except.ok S2.state.errorTrace := by
  induction fuel with
  | zero =>
    intro S
    unfold backtrackLoop backtrackLoopLog
    split_ifs <;> rfl
  | succ fuel ih =>
    intro S
    unfold backtrackLoop backtrackLoopLog
    by_cases hr : S.state.row > 0
    · rw [if_pos hr, if_pos hr, backtrackStepLog_state]
      cases backtrackStepLog w P T M S with
      | error e => rfl
      | ok S2 => exact ih S2
    · rw [if_neg hr, if_neg hr]

/-- Every branch of an iteration assigns the entry `row - 1`, whatever the
values read. -/
theorem backtrackBranch_assigned (w flag up left diag : Nat) (S : BtTraced) :
    (backtrackBranch w flag up left diag S).assigned
      = S.assigned ++ [(S.state.row - 1).toNat] := by
  unfold backtrackBranch
  split_ifs <;> rfl

/-- What one iteration does, whatever the values read: it assigns the entry
`row - 1`, keeps the length of the trace, and lowers `row` by at most one. -/
theorem backtrackBranch_inv (w flag up left diag : Nat) (S : BtTraced) (m : Nat)
    (hrow : S.state.row > 0) (hlen : S.state.errorTrace.length = m) (hle : S.state.row ≤ m)
    (hinv : ∀ i : Nat, S.state.row ≤ i → i < m → i ∈ S.assigned) :
    (backtrackBranch w flag up left diag S).state.errorTrace.length = m ∧
    0 ≤ (backtrackBranch w flag up left diag S).state.row ∧
    (backtrackBranch w flag up left diag S).state.row ≤ m ∧
    (∀ i : Nat, (backtrackBranch w flag up left diag S).state.row ≤ i → i < m →
      i ∈ (backtrackBranch w flag up left diag S).assigned) := by
  have key : ∀ i : Nat, S.state.row - 1 ≤ i → i < m →
      i ∈ S.assigned ++ [(S.state.row - 1).toNat] := by
    intro i h1 h2
    rw [List.mem_append, List.mem_singleton]
    by_cases h : S.state.row ≤ i
    · exact Or.inl (hinv i h h2)
    · right; omega
  unfold backtrackBranch
  split_ifs <;>
    simp only [BtTraced.assign, BtTraced.decRow, BtTraced.decCol, List.length_set] <;>
    refine ⟨hlen, by omega, by omega, fun i h1 h2 => key i (by omega) h2⟩

/-- A finished run of the loop, whatever the values read, has assigned every
entry from the row it started at upwards. -/
theorem backtrackRun_inv (w : Nat) (m : Nat) (reads : List (Nat × Nat × Nat × Nat)) :
    ∀ S : BtTraced, S.state.errorTrace.length = m → 0 ≤ S.state.row → S.state.row ≤ m →
      (∀ i : Nat, S.state.row ≤ i → i < m → i ∈ S.assigned) →
      (backtrackRun w reads S).state.row = 0 →
      (backtrackRun w reads S).state.errorTrace.length = m ∧
      ∀ i : Nat, i < m → i ∈ (backtrackRun w reads S).assigned := by
  induction reads with
  | nil =>
    intro S hlen _ _ hinv hend
    unfold backtrackRun at hend ⊢
    exact ⟨hlen, fun i hi => hinv i (by omega) hi⟩
  | cons v vs ih =>
    intro S hlen h0 hle hinv hend
    unfold backtrackRun at hend ⊢
    by_cases hr : S.state.row > 0
    · rw [if_pos hr] at hend ⊢
      obtain ⟨a, b, c, d⟩ := backtrackBranch_inv w v.1 v.2.1 v.2.2.1 v.2.2.2 S m hr hlen hle hinv
      exact ih _ a b c d hend
    · rw [if_neg hr] at hend ⊢
      exact ⟨hlen, fun i hi => hinv i (by omega) hi⟩

theorem backtrackLoopLog_inv (w : Nat) (P T : List Char) (M : BandedMatrix) (m fuel : Nat) :
    ∀ S S2 : BtTraced, S.state.errorTrace.length = m → 0 ≤ S.state.row → S.state.row ≤ m →
      (∀ i : Nat, S.state.row ≤ i → i < m → i ∈ S.assigned) →
      backtrackLoopLog w P T M fuel S = Except.ok S2 →
      S2.state.errorTrace.length = m ∧ ∀ i : Nat, i < m → i ∈ S2.assigned := by
  induction fuel with
  | zero =>
    intro S S2 hlen h0 hle hinv h
    unfold backtrackLoopLog at h
    split_ifs at h with hr
    simp only [Except.ok.injEq] at h
    subst h
    exact ⟨hlen, fun i hi => hinv i (by omega) hi⟩
  | succ fuel ih =>
    intro S S2 hlen h0 hle hinv h
    unfold backtrackLoopLog at h
    split_ifs at h with hr
    · unfold backtrackStepLog at h
      split_ifs at h with hc
      simp only [] at h
      obtain ⟨a, b, c, d⟩ := backtrackBranch_inv w (mismatchFlag P T S.state.row S.state.col)
        (M.get (S.state.row - 1) S.state.col) (M.get S.state.row (S.state.col - 1))
        (M.get (S.state.row - 1) (S.state.col - 1)) S m hr hlen hle hinv
      exact ih _ S2 a b c d h
    · simp only [Except.ok.injEq] at h
      subst h
      exact ⟨hlen, fun i hi => hinv i (by omega) hi⟩

/-- C5 (one classified entry per pattern character).  The embedding of
`backtrackDP` either stops at the read `colPat[col - 1]` with `col = 0` or
returns a trace; a returned trace has exactly `m` entries, and every index
`0 .. m-1` was assigned by a backtracking step.  The same holds of every
finished run of the loop whatever values its reads return (so also when the
read at `col = 0` yields some value): the trace has `m` entries and every
index was assigned by a step. -/
theorem backtrackDP_classifies_every_index (w band : Nat) (P T : List Char)
    (M : BandedMatrix) :
    (backtrackDP w band P T M = Except.error BtError.textIndexBeforeStart ∨
      ∃ S : BtTraced, backtrackDPLog w band P T M = Except.ok S ∧
        backtrackDP w band P T M = Except.ok S.state.errorTrace ∧
        S.state.errorTrace.length = P.length ∧
        ∀ i : Nat, i < P.length → i ∈ S.assigned) ∧
    (∀ reads : List (Nat × Nat × Nat × Nat),
      (backtrackRun w reads
        { state := backtrackInit w band P M, assigned := [] }).state.row = 0 →
      (backtrackRun w reads
        { state := backtrackInit w band P M, assigned := [] }).state.errorTrace.length
          = P.length ∧
      ∀ i : Nat, i < P.length →
        i ∈ (backtrackRun w reads
          { state := backtrackInit w band P M, assigned := [] }).assigned) := by
  have hlen0 : (backtrackInit w band P M).errorTrace.length = P.length := by
    simp [backtrackInit]
  have hrow0 : (backtrackInit w band P M).row = P.length := rfl
  constructor
  · have hfuel := backtrackDP_fuel w band P T M
    have hproj := backtrackLoopLog_state w P T M
      (P.length + (startColumn w band P.length M).2.toNat)
      { state := backtrackInit w band P M, assigned := [] }
    have hdp : backtrackDP w band P T M = backtrackLoop w P T M
      (P.length + (startColumn w band P.length M).2.toNat) (backtrackInit w band P M) := rfl
    have hlog : backtrackDPLog w band P T M = backtrackLoopLog w P T M
      (P.length + (startColumn w band P.length M).2.toNat)
      { state := backtrackInit w band P M, assigned := [] } := rfl
    rw [← hdp, ← hlog] at hproj
    cases hres : backtrackDPLog w band P T M with
    | error e =>
      rw [hres] at hproj
      simp only [] at hproj
      cases e with
      | textIndexBeforeStart => exact Or.inl hproj
      | outOfFuel => exact absurd hproj hfuel
    | ok S =>
      rw [hres] at hproj
      simp only [] at hproj
      rw [hlog] at hres
      obtain ⟨a, b⟩ := backtrackLoopLog_inv w P T M P.length _ _ S hlen0
        (by rw [hrow0]; omega) (by rw [hrow0]) (by
          intro i h1 h2; exfalso; simp only [hrow0] at h1; omega) hres
      exact Or.inr ⟨S, rfl, hproj, a, b⟩
  · intro reads hend
    exact backtrackRun_inv w P.length reads _ hlen0 (by rw [hrow0]; omega) (by rw [hrow0])
      (by intro i h1 h2; exfalso; simp only [hrow0] at h1; omega) hend

set_option maxRecDepth 100000 in
theorem backtrackDP_classifies_every_index_witness :
    ∃ S : BtTraced,
      backtrackDPLog 16 1 "ABCD".toList "AXBCD".toList
        (runDPFill 16 1 "ABCD".toList "AXBCD".toList (initMatrix 1 0)) = Except.ok S ∧
      backtrackDP 16 1 "ABCD".toList "AXBCD".toList
        (runDPFill 16 1 "ABCD".toList "AXBCD".toList (initMatrix 1 0))
          = Except.ok S.state.errorTrace ∧
      S.state.errorTrace.length = "ABCD".toList.length ∧
      ∀ i : Nat, i < "ABCD".toList.length → i ∈ S.assigned :=
  (backtrackDP_classifies_every_index 16 1 "ABCD".toList "AXBCD".toList
    (runDPFill 16 1 "ABCD".toList "AXBCD".toList (initMatrix 1 0))).1.resolve_left (by
      have e : backtrackDP 16 1 "ABCD".toList "AXBCD".toList
          (runDPFill 16 1 "ABCD".toList "AXBCD".toList (initMatrix 1 0))
          = Except.ok [ERROR_T.MATCH, ERROR_T.MATCH, ERROR_T.MATCH, ERROR_T.MATCH] := by rfl
      rw [e]
      exact fun h => nomatch h)

end FAME
